import Mathlib

/-!
Verification development for the `ast-append-ids` crate.

The Rust sources are shallowly embedded: pure functions become Lean
functions, the per-processor mutable state (`IdGenerator`, path stacks,
element counters) becomes explicit state passing, and the three traversal
engines are modelled at the level the library itself works at
(the XML engine on `quick_xml` event streams, the HTML engine on parsed
node trees, the JSX engine on JSX syntax nodes).  Character classification
(`is_alphanumeric`, `is_lowercase`, `to_lowercase`, whitespace) is modelled
with Lean's ASCII `Char` operations, matching the Rust behaviour on the
ASCII range.  The SHA-256 hex digest used by the Hash strategy is kept as
an explicit function parameter `digest`; every statement is quantified over
it, so nothing depends on the concrete digest.
-/

/-! ## Decimal representation of naturals (Rust `usize::to_string`) -/

/-- The ASCII digit character for `d` (meaningful for `d < 10`). -/
def digitChar (d : Nat) : Char := Char.ofNat (48 + d)

/-- Most-significant-first decimal digits of `n`, with explicit fuel. -/
def natReprAux : Nat → Nat → List Char
  | 0, _ => []
  | fuel + 1, n =>
    if n < 10 then [digitChar n]
    else natReprAux fuel (n / 10) ++ [digitChar (n % 10)]

/-- Decimal string of a natural number, as Rust `to_string` produces. -/
def natRepr (n : Nat) : String := ⟨natReprAux (n + 1) n⟩

/-- Numeric value of a most-significant-first digit-character list. -/
def digitsVal (cs : List Char) : Nat :=
  cs.foldl (fun acc c => 10 * acc + (c.toNat - 48)) 0

theorem digitChar_toNat (d : Nat) (h : d < 10) : (digitChar d).toNat = 48 + d := by
  interval_cases d <;> rfl

theorem digitsVal_append_digit (l : List Char) (c : Char) :
    digitsVal (l ++ [c]) = 10 * digitsVal l + (c.toNat - 48) := by
  simp [digitsVal]

theorem natReprAux_val : ∀ fuel n, n < 10 ^ fuel → digitsVal (natReprAux fuel n) = n := by
  intro fuel
  induction fuel with
  | zero =>
    intro n hn
    simp at hn
    simp [hn, natReprAux, digitsVal]
  | succ m ih =>
    intro n hn
    by_cases h : n < 10
    · simp [natReprAux, h, digitsVal, digitChar_toNat n h]
    · rw [natReprAux, if_neg h, digitsVal_append_digit]
      have hdiv : n / 10 < 10 ^ m := by
        rw [Nat.div_lt_iff_lt_mul (by norm_num)]
        calc n < 10 ^ (m + 1) := hn
        _ = 10 ^ m * 10 := by ring
      rw [ih (n / 10) hdiv, digitChar_toNat (n % 10) (Nat.mod_lt n (by norm_num))]
      omega

theorem natRepr_injective : Function.Injective natRepr := by
  intro m n h
  have hdata : natReprAux (m + 1) m = natReprAux (n + 1) n := congrArg String.data h
  have hm : m < 10 ^ (m + 1) :=
    lt_of_lt_of_le (Nat.lt_two_pow m)
      (le_trans (Nat.pow_le_pow_left (by norm_num) m)
        (Nat.pow_le_pow_right (by norm_num) (Nat.le_succ m)))
  have hn : n < 10 ^ (n + 1) :=
    lt_of_lt_of_le (Nat.lt_two_pow n)
      (le_trans (Nat.pow_le_pow_left (by norm_num) n)
        (Nat.pow_le_pow_right (by norm_num) (Nat.le_succ n)))
  calc m = digitsVal (natReprAux (m + 1) m) := (natReprAux_val (m + 1) m hm).symm
  _ = digitsVal (natReprAux (n + 1) n) := by rw [hdata]
  _ = n := natReprAux_val (n + 1) n hn

/-! ## Configuration (`IdOptions`, `IdStrategy` from `lib.rs`) -/

/-- `IdStrategy` from `lib.rs`. -/
inductive IdStrategy
  | hash
  | slug
  | path
deriving DecidableEq

/-- `IdOptions` from `lib.rs`.  `pfx` embeds the Rust field named after the
literal text prepended to every identifier; `includeTags` / `excludeTags`
embed the `include` / `exclude` vectors (renamed because of Lean keywords). -/
structure IdOptions where
  attr : String
  strategy : IdStrategy
  pfx : String
  overwrite : Bool
  selector : Option String
  includeTags : List String
  excludeTags : List String
deriving DecidableEq

/-! ## Identifier generator (`id_generator.rs`) -/

/-- State of `IdGenerator`: the set of already-emitted identifiers and the
JSX visitation counter. -/
structure IdGenerator where
  usedIds : Finset String
  nodeCounter : Nat
deriving DecidableEq

/-- `IdGenerator::new`. -/
def IdGenerator.new : IdGenerator := ⟨∅, 0⟩

/-- `IdGenerator::increment_counter`. -/
def IdGenerator.incr (g : IdGenerator) : IdGenerator :=
  { g with nodeCounter := g.nodeCounter + 1 }

/-- The candidate produced by suffixing `id` with `-c`
(`format!("{}-{}", id, counter)` in `ensure_unique`). -/
def cand (id : String) (c : Nat) : String := id ++ "-" ++ natRepr c

/-- The search loop of `ensure_unique`: the first counter `≥ c` whose
suffixed candidate is unused.  The fuel is irrelevant as soon as it is
large enough to find a free candidate (see `freeCounter_not_mem`). -/
def freeCounter (used : Finset String) (id : String) : Nat → Nat → Nat
  | 0, c => c
  | fuel + 1, c => if cand id c ∈ used then freeCounter used id fuel (c + 1) else c

/-- `IdGenerator::ensure_unique`: return `id` if unseen, otherwise the first
`id-c` (`c ≥ 2`) not yet used; record the returned identifier. -/
def ensureUnique (g : IdGenerator) (id : String) : String × IdGenerator :=
  if id ∈ g.usedIds then
    let c := freeCounter g.usedIds id g.usedIds.card 2
    let uid := cand id c
    (uid, { g with usedIds := insert uid g.usedIds })
  else
    (id, { g with usedIds := insert id g.usedIds })

theorem cand_injective (id : String) {c1 c2 : Nat} (h : cand id c1 = cand id c2) :
    c1 = c2 := by
  have hdata : (id ++ "-").data ++ (natRepr c1).data
      = (id ++ "-").data ++ (natRepr c2).data := by
    have := congrArg String.data h
    simpa [cand, String.data_append, List.append_assoc] using this
  have hrepr : (natRepr c1).data = (natRepr c2).data := List.append_cancel_left hdata
  exact natRepr_injective (by
    cases hr1 : natRepr c1
    cases hr2 : natRepr c2
    simp [hr1, hr2] at hrepr
    simp [hrepr])

theorem exists_free (used : Finset String) (id : String) (c : Nat) :
    ∃ k, k ≤ used.card ∧ cand id (c + k) ∉ used := by
  by_contra hcon
  push_neg at hcon
  have hsub : ∀ k ∈ Finset.range (used.card + 1), cand id (c + k) ∈ used := by
    intro k hk
    have hk' := Finset.mem_range.mp hk
    exact hcon k (by omega)
  have hinj : Set.InjOn (fun k => cand id (c + k)) ↑(Finset.range (used.card + 1)) := by
    intro k1 _ k2 _ h
    have := cand_injective id h
    omega
  have hcard := Finset.card_le_card_of_injOn (fun k => cand id (c + k)) hsub hinj
  rw [Finset.card_range] at hcard
  omega

theorem freeCounter_not_mem (used : Finset String) (id : String) :
    ∀ fuel c, (∃ k, k ≤ fuel ∧ cand id (c + k) ∉ used) →
      cand id (freeCounter used id fuel c) ∉ used := by
  intro fuel
  induction fuel with
  | zero =>
    intro c ⟨k, hk, hnot⟩
    have hk0 : k = 0 := Nat.le_zero.mp hk
    subst hk0
    simpa [freeCounter] using hnot
  | succ m ih =>
    intro c ⟨k, hk, hnot⟩
    by_cases h : cand id c ∈ used
    · rw [freeCounter, if_pos h]
      apply ih
      have hk0 : k ≠ 0 := by
        intro h0
        subst h0
        simp at hnot
        exact hnot h
      refine ⟨k - 1, by omega, ?_⟩
      have : c + 1 + (k - 1) = c + k := by omega
      rw [this]
      exact hnot
    · rw [freeCounter, if_neg h]
      exact h

theorem ensureUnique_fst_not_mem (g : IdGenerator) (id : String) :
    (ensureUnique g id).1 ∉ g.usedIds := by
  unfold ensureUnique
  by_cases h : id ∈ g.usedIds
  · simp only [if_pos h]
    exact freeCounter_not_mem g.usedIds id g.usedIds.card 2
      (exists_free g.usedIds id 2)
  · simpa [if_neg h] using h

theorem ensureUnique_snd_usedIds (g : IdGenerator) (id : String) :
    (ensureUnique g id).2.usedIds = insert (ensureUnique g id).1 g.usedIds := by
  unfold ensureUnique
  by_cases h : id ∈ g.usedIds <;> simp [h]

theorem ensureUnique_snd_counter (g : IdGenerator) (id : String) :
    (ensureUnique g id).2.nodeCounter = g.nodeCounter := by
  unfold ensureUnique
  by_cases h : id ∈ g.usedIds <;> simp [h]

/-! ## The three strategies (`id_generator.rs`) -/

/-- The canonical content string hashed by the Hash strategy:
`{"type":"<tag>","path":"<colon-joined path>"}`. -/
def hashContent (nodeType : String) (path : List Nat) : String :=
  "\x7b\"type\":\"" ++ nodeType ++ "\",\"path\":\""
    ++ String.intercalate ":" (path.map natRepr) ++ "\"\x7d"

/-- `IdGenerator::generate_hash_id`, with the SHA-256 hex digest supplied as
the function `digest` (the code takes the first 8 hex characters). -/
def generateHashId (digest : String → String) (g : IdGenerator)
    (nodeType : String) (path : List Nat) (pfx : String) : String × IdGenerator :=
  let shortHash := (digest (hashContent nodeType path)).take 8
  ensureUnique g (pfx ++ shortHash)

/-- The character replacement step of the Slug strategy: keep alphanumeric
characters, spaces and hyphens; everything else becomes a space. -/
def keepChar (c : Char) : Char :=
  if c.isAlphanum || c = ' ' || c = '-' then c else ' '

/-- Rust `str::trim` on a character list. -/
def trimChars (cs : List Char) : List Char :=
  ((cs.dropWhile Char.isWhitespace).reverse.dropWhile Char.isWhitespace).reverse

/-- Rust `split_whitespace`: maximal runs of non-whitespace characters
(`acc` holds the current word reversed). -/
def splitWsAux : List Char → List Char → List (List Char)
  | [], acc => if acc = [] then [] else [acc.reverse]
  | c :: rest, acc =>
    if c.isWhitespace then
      if acc = [] then splitWsAux rest [] else acc.reverse :: splitWsAux rest []
    else splitWsAux rest (c :: acc)

/-- The slug text pipeline of `generate_slug_id`: lowercase, trim, replace
disallowed characters by spaces, split on whitespace, join with hyphens,
truncate to 50 characters. -/
def slugify (text : String) : String :=
  let lowered := text.data.map Char.toLower
  let trimmed := trimChars lowered
  let replaced := trimmed.map keepChar
  let pieces := splitWsAux replaced []
  ⟨(List.intercalate ['-'] pieces).take 50⟩

/-- `IdGenerator::generate_slug_id`: empty text falls back to the Hash
strategy on tag `"unknown"` with an empty path. -/
def generateSlugId (digest : String → String) (g : IdGenerator)
    (text : String) (pfx : String) : String × IdGenerator :=
  if text = "" then generateHashId digest g "unknown" [] pfx
  else ensureUnique g (pfx ++ slugify text)

/-- `IdGenerator::generate_path_id`. -/
def generatePathId (g : IdGenerator) (nodeType : String) (path : List Nat)
    (pfx : String) : String × IdGenerator :=
  let pathString :=
    if path = [] then "" else "-" ++ String.intercalate "-" (path.map natRepr)
  ensureUnique g (pfx ++ nodeType ++ pathString)

/-! ## Shared policy and node descriptor (`ast_common.rs`) -/

/-- `AstNode` from `ast_common.rs`. -/
structure AstNode where
  nodeType : String
  textContent : Option String
  attributes : List (String × String)
  path : List Nat

/-- `should_process_node` from `ast_common.rs`: reject when an identifier is
present and `overwrite` is off, reject when `include` is non-empty and the
tag is not in it, reject when the tag is in `exclude`; otherwise accept. -/
def shouldProcessNode (nodeName : String) (options : IdOptions)
    (existingId : Option String) : Bool :=
  if existingId.isSome && !options.overwrite then false
  else if !options.includeTags.isEmpty && !options.includeTags.contains nodeName then false
  else if options.excludeTags.contains nodeName then false
  else true

/-- `generate_id_for_node` from `ast_common.rs`. -/
def generateIdForNode (digest : String → String) (g : IdGenerator)
    (node : AstNode) (options : IdOptions) : String × IdGenerator :=
  match options.strategy with
  | .hash => generateHashId digest g node.nodeType node.path options.pfx
  | .slug => generateSlugId digest g (node.textContent.getD "") options.pfx
  | .path => generatePathId g node.nodeType node.path options.pfx

/-- `find_attribute` from `ast_common.rs` (also the attribute lookup the XML
and HTML engines perform): value of the first attribute whose name matches. -/
def findAttr (attributes : List (String × String)) (name : String) : Option String :=
  (attributes.find? (fun a => a.1 = name)).map (fun a => a.2)

/-- `set_attribute` from `ast_common.rs` / scraper's `set_attribute`:
replace the value in place when the name is present, else append. -/
def setAttribute (attributes : List (String × String)) (name value : String) :
    List (String × String) :=
  match attributes with
  | [] => [(name, value)]
  | a :: rest =>
    if a.1 = name then (name, value) :: rest
    else a :: setAttribute rest name value

/-- Remove every attribute with the given name (scraper `remove_attribute`). -/
def removeAttr (attributes : List (String × String)) (name : String) :
    List (String × String) :=
  attributes.filter (fun a => a.1 ≠ name)

/-! ## Generic uniqueness of generated identifier sequences -/

/-- Run a generator step over a list of inputs, threading the state. -/
def runFold {α : Type} (f : IdGenerator → α → String × IdGenerator) :
    IdGenerator → List α → List String × IdGenerator
  | g, [] => ([], g)
  | g, a :: rest =>
    let r := f g a
    let rr := runFold f r.2 rest
    (r.1 :: rr.1, rr.2)

/-- A generator step that always returns a fresh identifier and records it
(the contract `ensure_unique` provides). -/
def FreshStep {α : Type} (f : IdGenerator → α → String × IdGenerator) : Prop :=
  ∀ g a, (f g a).1 ∉ g.usedIds ∧ (f g a).2.usedIds = insert (f g a).1 g.usedIds

theorem runFold_nodup {α : Type} (f : IdGenerator → α → String × IdGenerator)
    (hf : FreshStep f) :
    ∀ l g, ((runFold f g l).1).Nodup ∧ ∀ x ∈ (runFold f g l).1, x ∉ g.usedIds := by
  intro l
  induction l with
  | nil => intro g; simp [runFold]
  | cons a rest ih =>
    intro g
    obtain ⟨hfresh, hins⟩ := hf g a
    obtain ⟨hnodup, hnotmem⟩ := ih (f g a).2
    have hrest_not : ∀ x ∈ (runFold f (f g a).2 rest).1, x ≠ (f g a).1 ∧ x ∉ g.usedIds := by
      intro x hx
      have := hnotmem x hx
      rw [hins] at this
      simp at this
      exact ⟨this.1, this.2⟩
    constructor
    · simp only [runFold, List.nodup_cons]
      exact ⟨fun hmem => ((hrest_not _ hmem).1 rfl).elim, hnodup⟩
    · intro x hx
      simp only [runFold, List.mem_cons] at hx
      rcases hx with hx | hx
      · subst hx; exact hfresh
      · exact (hrest_not x hx).2

theorem ensureUnique_freshStep : FreshStep (fun g id => ensureUnique g id) :=
  fun g id => ⟨ensureUnique_fst_not_mem g id, ensureUnique_snd_usedIds g id⟩

theorem generateIdForNode_factor (digest : String → String) (g : IdGenerator)
    (node : AstNode) (options : IdOptions) :
    ∃ base, generateIdForNode digest g node options = ensureUnique g base := by
  unfold generateIdForNode generateHashId generateSlugId generatePathId
  cases options.strategy
  · exact ⟨_, rfl⟩
  · by_cases h : node.textContent.getD "" = ""
    · rw [if_pos h]; exact ⟨_, rfl⟩
    · rw [if_neg h]; exact ⟨_, rfl⟩
  · exact ⟨_, rfl⟩

theorem generateIdForNode_freshStep (digest : String → String) (options : IdOptions) :
    FreshStep (fun g node => generateIdForNode digest g node options) := by
  intro g node
  obtain ⟨base, hb⟩ := generateIdForNode_factor digest g node options
  simp only [hb]
  exact ⟨ensureUnique_fst_not_mem g base, ensureUnique_snd_usedIds g base⟩

/-- C1.  Within one run, identifiers are pairwise distinct: any sequence of
strategy-level generation requests (`generate_id_for_node`, any strategy)
yields pairwise-distinct identifiers, and any sequence of raw candidates
passed through `ensure_unique` yields pairwise-distinct strings. -/
theorem claim_C1_uniqueness (digest : String → String) (options : IdOptions) :
    (∀ g nodes,
      ((runFold (fun g node => generateIdForNode digest g node options) g nodes).1).Nodup)
    ∧ (∀ g cands, ((runFold (fun g id => ensureUnique g id) g cands).1).Nodup) :=
  ⟨fun g nodes =>
    (runFold_nodup _ (generateIdForNode_freshStep digest options) nodes g).1,
   fun g cands => (runFold_nodup _ ensureUnique_freshStep cands g).1⟩

/-- C9.  Exclusion always wins: whenever the tag is in `exclude`,
`should_process_node` rejects, whatever the other options say. -/
theorem claim_C9_exclude_wins (nodeName : String) (options : IdOptions)
    (existingId : Option String) (h : nodeName ∈ options.excludeTags) :
    shouldProcessNode nodeName options existingId = false := by
  have hc : options.excludeTags.contains nodeName = true := by
    simpa using h
  unfold shouldProcessNode
  simp only [hc]
  by_cases h1 : existingId.isSome && !options.overwrite
  · simp [h1]
  · simp [h1]

/-- Closed witness for C9: `script` is excluded even though it is included
and `overwrite` is on. -/
theorem claim_C9_exclude_wins_witness :
    "script" ∈ ["script"] ∧
    shouldProcessNode "script"
      ⟨"data-ast-id", .path, "el-", true, none, ["script"], ["script"]⟩
      (some "old") = false :=
  ⟨by decide,
   claim_C9_exclude_wins "script"
     ⟨"data-ast-id", .path, "el-", true, none, ["script"], ["script"]⟩
     (some "old") (by decide)⟩

/-! ## Slug pipeline lemmas -/

theorem toLower_eq_self_of_not_alnum (c : Char) (h : c.isAlphanum = false) :
    c.toLower = c := by
  have hup : c.isUpper = false := by
    simp [Char.isAlphanum, Char.isAlpha] at h
    exact h.1.1
  simp only [Char.isUpper, Bool.and_eq_false_iff, decide_eq_false_iff_not] at hup
  unfold Char.toLower
  simp only []
  rw [if_neg]
  intro hc
  obtain ⟨h1, h2⟩ := hc
  have h1n : 65 ≤ c.val.toNat := h1
  have h2n : c.val.toNat ≤ 90 := h2
  rcases hup with h' | h'
  · have : ¬ (65 ≤ c.val.toNat) := fun hx => h' hx
    omega
  · have : ¬ (c.val.toNat ≤ 90) := fun hx => h' hx
    omega

theorem map_toLower_eq_self (l : List Char) (h : ∀ c ∈ l, c.isAlphanum = false) :
    l.map Char.toLower = l := by
  induction l with
  | nil => rfl
  | cons c rest ih =>
    simp only [List.map_cons, List.cons.injEq]
    exact ⟨toLower_eq_self_of_not_alnum c (h c (by simp)),
      ih (fun x hx => h x (by simp [hx]))⟩

theorem trimChars_subset (l : List Char) : ∀ c ∈ trimChars l, c ∈ l := by
  intro c hc
  unfold trimChars at hc
  rw [List.mem_reverse] at hc
  have h1 := (List.dropWhile_sublist (l := (l.dropWhile Char.isWhitespace).reverse)
    (p := Char.isWhitespace)).mem hc
  rw [List.mem_reverse] at h1
  exact (List.dropWhile_sublist (l := l) (p := Char.isWhitespace)).mem h1

theorem splitWsAux_all_space (l : List Char) (h : ∀ c ∈ l, c = ' ') :
    splitWsAux l [] = [] := by
  induction l with
  | nil => rfl
  | cons c rest ih =>
    have hc : c = ' ' := h c (by simp)
    subst hc
    rw [splitWsAux]
    simp only [show (' ').isWhitespace = true from rfl, if_pos rfl]
    simp only [if_pos]
    exact ih (fun x hx => h x (by simp [hx]))

theorem slugify_eq_empty (text : String)
    (h : ∀ c ∈ text.data, ¬(c.isAlphanum = true ∨ c = '-')) :
    slugify text = "" := by
  have hna : ∀ c ∈ text.data, c.isAlphanum = false := by
    intro c hc
    have := h c hc
    simp at this
    exact this.1
  have hrep : ∀ x ∈ (trimChars text.data).map keepChar, x = ' ' := by
    intro x hx
    rw [List.mem_map] at hx
    obtain ⟨c, hc, hk⟩ := hx
    have hcmem := trimChars_subset text.data c hc
    have hcna := hna c hcmem
    have hcnh : ¬ c = '-' := by
      have := h c hcmem
      simp at this
      exact this.2
    subst hk
    unfold keepChar
    by_cases hsp : c = ' '
    · simp [hsp]
    · rw [if_neg]
      simp [hcna, hsp, hcnh]
  show (⟨(List.intercalate ['-']
    (splitWsAux ((trimChars (text.data.map Char.toLower)).map keepChar) [])).take 50⟩ : String) = ""
  rw [map_toLower_eq_self text.data hna, splitWsAux_all_space _ hrep]
  rfl

/-- C10.  The hash fallback of the Slug strategy fires only on exactly-empty
text: non-empty text with no alphanumeric or hyphen characters slugs to the
empty string, so `generate_slug_id` returns precisely the configured
prelude passed through `ensure_unique` (suffixed on repetition), not a
hash-derived identifier. -/
theorem claim_C10_slug_fallback (digest : String → String) (g : IdGenerator)
    (text pfx : String) (h1 : text ≠ "")
    (h2 : ∀ c ∈ text.data, ¬(c.isAlphanum = true ∨ c = '-')) :
    generateSlugId digest g text pfx = ensureUnique g pfx := by
  unfold generateSlugId
  rw [if_neg h1, slugify_eq_empty text h2]
  simp

/-- Closed witness for C10 at `text = "!?."`. -/
theorem claim_C10_slug_fallback_witness :
    ("!?." ≠ "" ∧ ∀ c ∈ ("!?." : String).data, ¬(c.isAlphanum = true ∨ c = '-'))
    ∧ generateSlugId (fun _ => "feedbeef") IdGenerator.new "!?." "el-"
      = ensureUnique IdGenerator.new "el-" :=
  ⟨⟨by decide, by decide⟩,
   claim_C10_slug_fallback (fun _ => "feedbeef") IdGenerator.new "!?." "el-"
     (by decide) (by decide)⟩

/-! ## XML engine (`xml.rs`)

The engine is a single pass over the `quick_xml` event stream.  It is
modelled here directly on event lists: the reader is configured with
`trim_text(true)`, which hands text events to the loop with surrounding
whitespace removed and drops events that become empty (`trimText` below);
the writer emits events verbatim.  Parsing and serialization of the byte
stream itself are the library's, outside the embedded core. -/

/-- The `quick_xml` events the processing loop distinguishes. -/
inductive XmlEvent
  | startE (name : String) (attrs : List (String × String))
  | emptyE (name : String) (attrs : List (String × String))
  | endE (name : String)
  | textE (s : String)
  | cdataE (s : String)
  | commentE (s : String)
  | piE (s : String)
  | doctypeE (s : String)
deriving DecidableEq

/-- Rust `str::trim` at `String` level. -/
def trimString (s : String) : String := ⟨trimChars s.data⟩

/-- The effect of `reader.trim_text(true)`: text events are trimmed and
dropped when they trim to nothing; every other event is untouched. -/
def trimText : List XmlEvent → List XmlEvent
  | [] => []
  | .textE s :: rest =>
    let t := trimString s
    if t = "" then trimText rest else .textE t :: trimText rest
  | e :: rest => e :: trimText rest

/-- `XmlProcessor::process_element`: look up the configured attribute, ask
the policy engine, generate an identifier, and — when overwriting over an
existing value — clear the attribute list (`element.clear_attributes()`,
which drops every attribute, see C4). -/
def processElement (digest : String → String) (options : IdOptions)
    (g : IdGenerator) (name : String) (attrs : List (String × String))
    (path : List Nat) : Option String × List (String × String) × IdGenerator :=
  let existingId := findAttr attrs options.attr
  if shouldProcessNode name options existingId then
    let node : AstNode := ⟨name, none, [], path⟩
    let r := generateIdForNode digest g node options
    let attrs' := if options.overwrite && existingId.isSome then [] else attrs
    (some r.1, attrs', r.2)
  else
    (none, attrs, g)

/-- The event loop of `XmlProcessor::process`, after `trim_text` has been
applied: `pathStack` and `counter` mirror the loop locals; `Start` pushes
the counter before processing and pops on the matching `End`; `Empty`
pushes and pops around its own emission; both bump the counter. -/
def processEventsAux (digest : String → String) (options : IdOptions) :
    List XmlEvent → IdGenerator → List Nat → Nat → List XmlEvent × IdGenerator
  | [], g, _, _ => ([], g)
  | .startE name attrs :: rest, g, pathStack, counter =>
    let path := pathStack ++ [counter]
    let r := processElement digest options g name attrs path
    let outAttrs := match r.1 with
      | some id => r.2.1 ++ [(options.attr, id)]
      | none => r.2.1
    let rr := processEventsAux digest options rest r.2.2 path (counter + 1)
    (.startE name outAttrs :: rr.1, rr.2)
  | .endE name :: rest, g, pathStack, counter =>
    let rr := processEventsAux digest options rest g pathStack.dropLast counter
    (.endE name :: rr.1, rr.2)
  | .emptyE name attrs :: rest, g, pathStack, counter =>
    let path := pathStack ++ [counter]
    let r := processElement digest options g name attrs path
    let outAttrs := match r.1 with
      | some id => r.2.1 ++ [(options.attr, id)]
      | none => r.2.1
    let rr := processEventsAux digest options rest r.2.2 pathStack (counter + 1)
    (.emptyE name outAttrs :: rr.1, rr.2)
  | e :: rest, g, pathStack, counter =>
    let rr := processEventsAux digest options rest g pathStack counter
    (e :: rr.1, rr.2)

/-- `XmlProcessor::process` on the event stream of a document, starting
from the processor's current generator state (the generator lives in the
processor struct, so it is an input here, not created by `process`). -/
def xmlProcess (digest : String → String) (options : IdOptions)
    (g : IdGenerator) (events : List XmlEvent) : List XmlEvent × IdGenerator :=
  processEventsAux digest options (trimText events) g [] 0

/-! ## Concrete fixtures for closed evaluations -/

/-- A throwaway concrete digest; closed statements that use it do not
depend on its values (they run non-Hash strategies). -/
def digA : String → String := fun _ => "aaaaaaaa"

/-- Path strategy, no overwrite, defaults otherwise. -/
def optsPathNoOw : IdOptions := ⟨"data-ast-id", .path, "el-", false, none, [], []⟩

/-- Path strategy with `overwrite = true`. -/
def optsPathOw : IdOptions := ⟨"data-ast-id", .path, "el-", true, none, [], []⟩

/-- C4 (code bug evaluation).  With `overwrite = true` and the configured
attribute present, the XML engine's `clear_attributes` call erases every
other attribute: the `class` attribute of the input tag is gone from the
output, which keeps only the freshly appended identifier. -/
theorem claim_C4_overwrite_clears_all :
    (xmlProcess digA optsPathOw IdGenerator.new
      [.startE "a" [("class", "c"), ("data-ast-id", "old")], .endE "a"]).1
    = [.startE "a" [("data-ast-id", "el-a-0")], .endE "a"] := by decide

/-- C2 (counterexample).  The generator is created in `new` and lives in
the processor, so a second `process` call on the same instance sees the
identifiers of the first call and suffixes them: the two outputs differ. -/
theorem claim_C2_counterexample :
    (xmlProcess digA optsPathNoOw
        ((xmlProcess digA optsPathNoOw IdGenerator.new [.emptyE "a" []]).2)
        [.emptyE "a" []]).1
    ≠ (xmlProcess digA optsPathNoOw IdGenerator.new [.emptyE "a" []]).1 := by decide

/-- C5 (counterexample).  `trim_text(true)` re-emits the text event
`" hi "` as `"hi"`: non-tag events are not byte-identical. -/
theorem claim_C5_counterexample :
    (xmlProcess digA optsPathNoOw IdGenerator.new
      [.startE "root" [], .textE " hi ", .endE "root"]).1
    = [.startE "root" [("data-ast-id", "el-root-0")], .textE "hi", .endE "root"]
    ∧ XmlEvent.textE " hi " ∉
      (xmlProcess digA optsPathNoOw IdGenerator.new
        [.startE "root" [], .textE " hi ", .endE "root"]).1 := by decide

/-! ## XML frame property (amended C5) -/

/-- Per-event effect of `trim_text(true)`. -/
def trimF : XmlEvent → Option XmlEvent
  | .textE s => if trimString s = "" then none else some (.textE (trimString s))
  | e => some e

/-- How an emitted tag's attributes may relate to the read tag's attributes:
either untouched, or — when the element qualified — the single configured
attribute appended (on top of the cleared list when the overwrite path ran,
see C4). -/
def tagCorr (options : IdOptions) (attrs outAttrs : List (String × String)) : Prop :=
  outAttrs = attrs ∨
  ∃ id, outAttrs =
    (if options.overwrite && (findAttr attrs options.attr).isSome then [] else attrs)
      ++ [(options.attr, id)]

/-- Relation between an event handed to the loop and the event written out:
start/empty tags keep their name and change at most per `tagCorr`; every
other event is written verbatim. -/
def eventCorr (options : IdOptions) : XmlEvent → XmlEvent → Prop
  | .startE n a, .startE m b => m = n ∧ tagCorr options a b
  | .emptyE n a, .emptyE m b => m = n ∧ tagCorr options a b
  | e, e' => e' = e

theorem trimText_eq_filterMap (events : List XmlEvent) :
    trimText events = events.filterMap trimF := by
  induction events with
  | nil => rfl
  | cons e rest ih =>
    cases e <;> simp [trimText, trimF, List.filterMap_cons, ih]
    next s =>
      by_cases h : trimString s = "" <;> simp [h, ih]

theorem processElement_attrs (digest : String → String) (options : IdOptions)
    (g : IdGenerator) (name : String) (attrs : List (String × String))
    (path : List Nat) :
    ((processElement digest options g name attrs path).1 = none ∧
      (processElement digest options g name attrs path).2.1 = attrs) ∨
    (∃ id, (processElement digest options g name attrs path).1 = some id ∧
      (processElement digest options g name attrs path).2.1 =
        if options.overwrite && (findAttr attrs options.attr).isSome then [] else attrs) := by
  by_cases h : shouldProcessNode name options (findAttr attrs options.attr) = true
  · right
    refine ⟨(generateIdForNode digest g ⟨name, none, [], path⟩ options).1, ?_, ?_⟩ <;>
      simp [processElement, h]
  · left
    constructor <;> simp [processElement, h]

theorem processEventsAux_corr (digest : String → String) (options : IdOptions) :
    ∀ es g ps c, List.Forall₂ (eventCorr options) es
      (processEventsAux digest options es g ps c).1 := by
  intro es
  induction es with
  | nil => intro g ps c; exact List.Forall₂.nil
  | cons e rest ih =>
    intro g ps c
    cases e with
    | startE name attrs =>
      refine List.Forall₂.cons ?_ (ih _ _ _)
      rcases processElement_attrs digest options g name attrs (ps ++ [c]) with
        ⟨h1, h2⟩ | ⟨id, h1, h2⟩
      · simp only [processEventsAux, h1, h2]
        exact ⟨rfl, Or.inl rfl⟩
      · simp only [processEventsAux, h1, h2]
        exact ⟨rfl, Or.inr ⟨id, rfl⟩⟩
    | emptyE name attrs =>
      refine List.Forall₂.cons ?_ (ih _ _ _)
      rcases processElement_attrs digest options g name attrs (ps ++ [c]) with
        ⟨h1, h2⟩ | ⟨id, h1, h2⟩
      · simp only [processEventsAux, h1, h2]
        exact ⟨rfl, Or.inl rfl⟩
      · simp only [processEventsAux, h1, h2]
        exact ⟨rfl, Or.inr ⟨id, rfl⟩⟩
    | endE name => exact List.Forall₂.cons rfl (ih _ _ _)
    | textE s => exact List.Forall₂.cons rfl (ih _ _ _)
    | cdataE s => exact List.Forall₂.cons rfl (ih _ _ _)
    | commentE s => exact List.Forall₂.cons rfl (ih _ _ _)
    | piE s => exact List.Forall₂.cons rfl (ih _ _ _)
    | doctypeE s => exact List.Forall₂.cons rfl (ih _ _ _)

/-- C5 (amended).  The reader trims text events (dropping the ones that
trim to nothing); after that, the loop writes every text, CDATA, comment,
doctype, processing-instruction and end-tag event verbatim, and start/empty
tags keep their name and change only by the configured attribute (on top of
the cleared attribute list when the overwrite path runs, see C4). -/
theorem claim_C5_frame (digest : String → String) (options : IdOptions)
    (g : IdGenerator) (events : List XmlEvent) :
    trimText events = events.filterMap trimF
    ∧ List.Forall₂ (eventCorr options) (trimText events)
        ((xmlProcess digest options g events).1) :=
  ⟨trimText_eq_filterMap events,
   processEventsAux_corr digest options (trimText events) g [] 0⟩

/-! ## Trim idempotence -/

theorem dropWhile_head_false (p : Char → Bool) :
    ∀ (l : List Char) c cs, List.dropWhile p l = c :: cs → p c = false := by
  intro l
  induction l with
  | nil => intro c cs h; simp [List.dropWhile] at h
  | cons a rest ih =>
    intro c cs h
    by_cases hp : p a
    · rw [List.dropWhile_cons, if_pos hp] at h
      exact ih c cs h
    · rw [List.dropWhile_cons, if_neg hp] at h
      obtain ⟨h1, _⟩ := List.cons.inj h
      subst h1
      simpa using hp

theorem trimChars_idem (l : List Char) : trimChars (trimChars l) = trimChars l := by
  unfold trimChars
  have h1 : ((((l.dropWhile Char.isWhitespace).reverse.dropWhile
      Char.isWhitespace).reverse).dropWhile Char.isWhitespace)
      = ((l.dropWhile Char.isWhitespace).reverse.dropWhile Char.isWhitespace).reverse := by
    cases hc : ((l.dropWhile Char.isWhitespace).reverse.dropWhile Char.isWhitespace).reverse with
    | nil => simp [hc]
    | cons c cs =>
      have hsplit : (l.dropWhile Char.isWhitespace).reverse
          = (l.dropWhile Char.isWhitespace).reverse.takeWhile Char.isWhitespace
            ++ (l.dropWhile Char.isWhitespace).reverse.dropWhile Char.isWhitespace :=
        (List.takeWhile_append_dropWhile Char.isWhitespace
          (l.dropWhile Char.isWhitespace).reverse).symm
      have hA : l.dropWhile Char.isWhitespace
          = ((l.dropWhile Char.isWhitespace).reverse.dropWhile Char.isWhitespace).reverse
            ++ ((l.dropWhile Char.isWhitespace).reverse.takeWhile Char.isWhitespace).reverse := by
        have hrev := congrArg List.reverse hsplit
        rw [List.reverse_reverse, List.reverse_append] at hrev
        exact hrev
      rw [hc] at hA
      have hfalse : Char.isWhitespace c = false := by
        apply dropWhile_head_false Char.isWhitespace l c
          (cs ++ ((l.dropWhile Char.isWhitespace).reverse.takeWhile Char.isWhitespace).reverse)
        simpa using hA
      rw [List.dropWhile_cons, if_neg (by simp [hfalse])]
  rw [h1, List.reverse_reverse]
  have h2 : ((l.dropWhile Char.isWhitespace).reverse.dropWhile Char.isWhitespace).dropWhile
      Char.isWhitespace
      = (l.dropWhile Char.isWhitespace).reverse.dropWhile Char.isWhitespace := by
    cases hc : (l.dropWhile Char.isWhitespace).reverse.dropWhile Char.isWhitespace with
    | nil => simp [hc]
    | cons c cs =>
      have hfalse := dropWhile_head_false Char.isWhitespace
        (l.dropWhile Char.isWhitespace).reverse c cs hc
      rw [List.dropWhile_cons, if_neg (by simp [hfalse])]
  rw [h2]

theorem trimString_idem (s : String) : trimString (trimString s) = trimString s := by
  unfold trimString
  exact congrArg String.mk (trimChars_idem s.data)

/-! ## XML idempotence (towards C3) -/

/-- A tag event that the policy engine will reject if seen again. -/
def settledEvent (options : IdOptions) : XmlEvent → Bool
  | .startE n a => !(shouldProcessNode n options (findAttr a options.attr))
  | .emptyE n a => !(shouldProcessNode n options (findAttr a options.attr))
  | _ => true

/-- A text event that `trim_text` would hand through unchanged. -/
def trimmedEvent : XmlEvent → Bool
  | .textE s => decide (trimString s = s ∧ s ≠ "")
  | _ => true

theorem findAttr_append_self (attrs : List (String × String)) (a v : String)
    (h : findAttr attrs a = none) : findAttr (attrs ++ [(a, v)]) a = some v := by
  induction attrs with
  | nil => simp [findAttr, List.find?]
  | cons x rest ih =>
    by_cases hx : x.1 = a
    · simp [findAttr, List.find?, hx] at h
    · have h' : findAttr rest a = none := by
        simpa [findAttr, List.find?, hx] using h
      simpa [findAttr, List.find?, hx] using ih h'

theorem shouldProcess_existing_none (nodeName : String) (options : IdOptions)
    (existingId : Option String) (h : shouldProcessNode nodeName options existingId = true)
    (how : options.overwrite = false) : existingId = none := by
  cases existingId with
  | none => rfl
  | some v => simp [shouldProcessNode, how] at h

theorem shouldProcess_some_no_overwrite (nodeName : String) (options : IdOptions)
    (v : String) (how : options.overwrite = false) :
    shouldProcessNode nodeName options (some v) = false := by
  simp [shouldProcessNode, how]

theorem processElement_pos (digest : String → String) (options : IdOptions)
    (g : IdGenerator) (name : String) (attrs : List (String × String)) (path : List Nat)
    (h : shouldProcessNode name options (findAttr attrs options.attr) = true) :
    processElement digest options g name attrs path =
      (some (generateIdForNode digest g ⟨name, none, [], path⟩ options).1,
       (if options.overwrite && (findAttr attrs options.attr).isSome then [] else attrs),
       (generateIdForNode digest g ⟨name, none, [], path⟩ options).2) := by
  simp [processElement, h]

theorem processElement_neg (digest : String → String) (options : IdOptions)
    (g : IdGenerator) (name : String) (attrs : List (String × String)) (path : List Nat)
    (h : shouldProcessNode name options (findAttr attrs options.attr) = false) :
    processElement digest options g name attrs path = (none, attrs, g) := by
  simp [processElement, h]

theorem processEventsAux_start_pos (digest : String → String) (options : IdOptions)
    (name : String) (attrs : List (String × String)) (rest : List XmlEvent)
    (g : IdGenerator) (ps : List Nat) (c : Nat)
    (h : shouldProcessNode name options (findAttr attrs options.attr) = true) :
    processEventsAux digest options (.startE name attrs :: rest) g ps c =
      (.startE name
          ((if options.overwrite && (findAttr attrs options.attr).isSome then [] else attrs)
            ++ [(options.attr,
              (generateIdForNode digest g ⟨name, none, [], ps ++ [c]⟩ options).1)])
        :: (processEventsAux digest options rest
            (generateIdForNode digest g ⟨name, none, [], ps ++ [c]⟩ options).2
            (ps ++ [c]) (c + 1)).1,
       (processEventsAux digest options rest
            (generateIdForNode digest g ⟨name, none, [], ps ++ [c]⟩ options).2
            (ps ++ [c]) (c + 1)).2) := by
  rw [processEventsAux, processElement_pos digest options g name attrs (ps ++ [c]) h]

theorem processEventsAux_start_neg (digest : String → String) (options : IdOptions)
    (name : String) (attrs : List (String × String)) (rest : List XmlEvent)
    (g : IdGenerator) (ps : List Nat) (c : Nat)
    (h : shouldProcessNode name options (findAttr attrs options.attr) = false) :
    processEventsAux digest options (.startE name attrs :: rest) g ps c =
      (.startE name attrs
        :: (processEventsAux digest options rest g (ps ++ [c]) (c + 1)).1,
       (processEventsAux digest options rest g (ps ++ [c]) (c + 1)).2) := by
  rw [processEventsAux, processElement_neg digest options g name attrs (ps ++ [c]) h]

theorem processEventsAux_empty_pos (digest : String → String) (options : IdOptions)
    (name : String) (attrs : List (String × String)) (rest : List XmlEvent)
    (g : IdGenerator) (ps : List Nat) (c : Nat)
    (h : shouldProcessNode name options (findAttr attrs options.attr) = true) :
    processEventsAux digest options (.emptyE name attrs :: rest) g ps c =
      (.emptyE name
          ((if options.overwrite && (findAttr attrs options.attr).isSome then [] else attrs)
            ++ [(options.attr,
              (generateIdForNode digest g ⟨name, none, [], ps ++ [c]⟩ options).1)])
        :: (processEventsAux digest options rest
            (generateIdForNode digest g ⟨name, none, [], ps ++ [c]⟩ options).2
            ps (c + 1)).1,
       (processEventsAux digest options rest
            (generateIdForNode digest g ⟨name, none, [], ps ++ [c]⟩ options).2
            ps (c + 1)).2) := by
  rw [processEventsAux, processElement_pos digest options g name attrs (ps ++ [c]) h]

theorem processEventsAux_empty_neg (digest : String → String) (options : IdOptions)
    (name : String) (attrs : List (String × String)) (rest : List XmlEvent)
    (g : IdGenerator) (ps : List Nat) (c : Nat)
    (h : shouldProcessNode name options (findAttr attrs options.attr) = false) :
    processEventsAux digest options (.emptyE name attrs :: rest) g ps c =
      (.emptyE name attrs
        :: (processEventsAux digest options rest g ps (c + 1)).1,
       (processEventsAux digest options rest g ps (c + 1)).2) := by
  rw [processEventsAux, processElement_neg digest options g name attrs (ps ++ [c]) h]

theorem processEventsAux_settled (digest : String → String) (options : IdOptions)
    (how : options.overwrite = false) :
    ∀ es g ps c e, e ∈ (processEventsAux digest options es g ps c).1 →
      settledEvent options e = true := by
  intro es
  induction es with
  | nil => intro g ps c e he; simp [processEventsAux] at he
  | cons ev rest ih =>
    intro g ps c e he
    cases ev with
    | startE name attrs =>
      by_cases h : shouldProcessNode name options (findAttr attrs options.attr) = true
      · have hnone := shouldProcess_existing_none name options _ h how
        rw [processEventsAux_start_pos digest options name attrs rest g ps c h] at he
        simp only [how, hnone, Option.isSome_none, Bool.and_false, Bool.false_and,
          if_neg Bool.false_ne_true, List.mem_cons] at he
        rcases he with he | he
        · subst he
          have hfind := findAttr_append_self attrs options.attr
            (generateIdForNode digest g ⟨name, none, [], ps ++ [c]⟩ options).1 hnone
          simp [settledEvent, hfind, shouldProcess_some_no_overwrite _ options _ how]
        · exact ih _ _ _ e he
      · rw [Bool.not_eq_true] at h
        rw [processEventsAux_start_neg digest options name attrs rest g ps c h] at he
        rcases List.mem_cons.mp he with he | he
        · subst he
          simp [settledEvent, h]
        · exact ih _ _ _ e he
    | emptyE name attrs =>
      by_cases h : shouldProcessNode name options (findAttr attrs options.attr) = true
      · have hnone := shouldProcess_existing_none name options _ h how
        rw [processEventsAux_empty_pos digest options name attrs rest g ps c h] at he
        simp only [how, hnone, Option.isSome_none, Bool.and_false, Bool.false_and,
          if_neg Bool.false_ne_true, List.mem_cons] at he
        rcases he with he | he
        · subst he
          have hfind := findAttr_append_self attrs options.attr
            (generateIdForNode digest g ⟨name, none, [], ps ++ [c]⟩ options).1 hnone
          simp [settledEvent, hfind, shouldProcess_some_no_overwrite _ options _ how]
        · exact ih _ _ _ e he
      · rw [Bool.not_eq_true] at h
        rw [processEventsAux_empty_neg digest options name attrs rest g ps c h] at he
        rcases List.mem_cons.mp he with he | he
        · subst he
          simp [settledEvent, h]
        · exact ih _ _ _ e he
    | endE name =>
      simp only [processEventsAux] at he
      rcases List.mem_cons.mp he with he | he
      · subst he; rfl
      · exact ih _ _ _ e he
    | textE s =>
      simp only [processEventsAux] at he
      rcases List.mem_cons.mp he with he | he
      · subst he; rfl
      · exact ih _ _ _ e he
    | cdataE s =>
      simp only [processEventsAux] at he
      rcases List.mem_cons.mp he with he | he
      · subst he; rfl
      · exact ih _ _ _ e he
    | commentE s =>
      simp only [processEventsAux] at he
      rcases List.mem_cons.mp he with he | he
      · subst he; rfl
      · exact ih _ _ _ e he
    | piE s =>
      simp only [processEventsAux] at he
      rcases List.mem_cons.mp he with he | he
      · subst he; rfl
      · exact ih _ _ _ e he
    | doctypeE s =>
      simp only [processEventsAux] at he
      rcases List.mem_cons.mp he with he | he
      · subst he; rfl
      · exact ih _ _ _ e he

theorem processEventsAux_id_of_settled (digest : String → String) (options : IdOptions) :
    ∀ es g ps c, (∀ e ∈ es, settledEvent options e = true) →
      processEventsAux digest options es g ps c = (es, g) := by
  intro es
  induction es with
  | nil => intro g ps c _; rfl
  | cons ev rest ih =>
    intro g ps c hs
    cases ev with
    | startE name attrs =>
      have h : shouldProcessNode name options (findAttr attrs options.attr) = false := by
        have := hs (.startE name attrs) (by simp)
        simpa [settledEvent] using this
      rw [processEventsAux_start_neg digest options name attrs rest g ps c h,
        ih g (ps ++ [c]) (c + 1) (fun e he => hs e (by simp [he]))]
    | emptyE name attrs =>
      have h : shouldProcessNode name options (findAttr attrs options.attr) = false := by
        have := hs (.emptyE name attrs) (by simp)
        simpa [settledEvent] using this
      rw [processEventsAux_empty_neg digest options name attrs rest g ps c h,
        ih g ps (c + 1) (fun e he => hs e (by simp [he]))]
    | endE name =>
      simp only [processEventsAux]
      rw [ih g ps.dropLast c (fun e he => hs e (by simp [he]))]
    | textE s =>
      simp only [processEventsAux]
      rw [ih g ps c (fun e he => hs e (by simp [he]))]
    | cdataE s =>
      simp only [processEventsAux]
      rw [ih g ps c (fun e he => hs e (by simp [he]))]
    | commentE s =>
      simp only [processEventsAux]
      rw [ih g ps c (fun e he => hs e (by simp [he]))]
    | piE s =>
      simp only [processEventsAux]
      rw [ih g ps c (fun e he => hs e (by simp [he]))]
    | doctypeE s =>
      simp only [processEventsAux]
      rw [ih g ps c (fun e he => hs e (by simp [he]))]

theorem trimText_all_trimmed : ∀ es, ∀ e ∈ trimText es, trimmedEvent e = true := by
  intro es
  induction es with
  | nil => intro e he; simp [trimText] at he
  | cons ev rest ih =>
    intro e he
    cases ev with
    | textE s =>
      by_cases h : trimString s = ""
      · rw [trimText] at he
        simp only [h, if_pos rfl] at he
        exact ih e he
      · rw [trimText] at he
        simp only [if_neg h, List.mem_cons] at he
        rcases he with he | he
        · subst he
          simp [trimmedEvent, trimString_idem s, h]
        · exact ih e he
    | startE name attrs =>
      rcases List.mem_cons.mp (by simpa [trimText] using he) with he' | he'
      · subst he'; rfl
      · exact ih e he'
    | emptyE name attrs =>
      rcases List.mem_cons.mp (by simpa [trimText] using he) with he' | he'
      · subst he'; rfl
      · exact ih e he'
    | endE name =>
      rcases List.mem_cons.mp (by simpa [trimText] using he) with he' | he'
      · subst he'; rfl
      · exact ih e he'
    | cdataE s =>
      rcases List.mem_cons.mp (by simpa [trimText] using he) with he' | he'
      · subst he'; rfl
      · exact ih e he'
    | commentE s =>
      rcases List.mem_cons.mp (by simpa [trimText] using he) with he' | he'
      · subst he'; rfl
      · exact ih e he'
    | piE s =>
      rcases List.mem_cons.mp (by simpa [trimText] using he) with he' | he'
      · subst he'; rfl
      · exact ih e he'
    | doctypeE s =>
      rcases List.mem_cons.mp (by simpa [trimText] using he) with he' | he'
      · subst he'; rfl
      · exact ih e he'

theorem trimText_id_of_trimmed : ∀ es, (∀ e ∈ es, trimmedEvent e = true) →
    trimText es = es := by
  intro es
  induction es with
  | nil => intro _; rfl
  | cons ev rest ih =>
    intro hs
    cases ev with
    | textE s =>
      have hh := hs (.textE s) (by simp)
      simp only [trimmedEvent, decide_eq_true_eq] at hh
      rw [trimText]
      simp only [hh.1, if_neg hh.2]
      rw [ih (fun e he => hs e (by simp [he]))]
    | startE name attrs =>
      simp only [trimText]
      rw [ih (fun e he => hs e (by simp [he]))]
    | emptyE name attrs =>
      simp only [trimText]
      rw [ih (fun e he => hs e (by simp [he]))]
    | endE name =>
      simp only [trimText]
      rw [ih (fun e he => hs e (by simp [he]))]
    | cdataE s =>
      simp only [trimText]
      rw [ih (fun e he => hs e (by simp [he]))]
    | commentE s =>
      simp only [trimText]
      rw [ih (fun e he => hs e (by simp [he]))]
    | piE s =>
      simp only [trimText]
      rw [ih (fun e he => hs e (by simp [he]))]
    | doctypeE s =>
      simp only [trimText]
      rw [ih (fun e he => hs e (by simp [he]))]

theorem processEventsAux_trimmed (digest : String → String) (options : IdOptions) :
    ∀ es g ps c, (∀ e ∈ es, trimmedEvent e = true) →
      ∀ e ∈ (processEventsAux digest options es g ps c).1, trimmedEvent e = true := by
  intro es
  induction es with
  | nil => intro g ps c _ e he; simp [processEventsAux] at he
  | cons ev rest ih =>
    intro g ps c hs e he
    cases ev with
    | startE name attrs =>
      by_cases h : shouldProcessNode name options (findAttr attrs options.attr) = true
      · rw [processEventsAux_start_pos digest options name attrs rest g ps c h] at he
        rcases List.mem_cons.mp he with he' | he'
        · subst he'; rfl
        · exact ih _ _ _ (fun x hx => hs x (by simp [hx])) e he'
      · rw [Bool.not_eq_true] at h
        rw [processEventsAux_start_neg digest options name attrs rest g ps c h] at he
        rcases List.mem_cons.mp he with he' | he'
        · subst he'; rfl
        · exact ih _ _ _ (fun x hx => hs x (by simp [hx])) e he'
    | emptyE name attrs =>
      by_cases h : shouldProcessNode name options (findAttr attrs options.attr) = true
      · rw [processEventsAux_empty_pos digest options name attrs rest g ps c h] at he
        rcases List.mem_cons.mp he with he' | he'
        · subst he'; rfl
        · exact ih _ _ _ (fun x hx => hs x (by simp [hx])) e he'
      · rw [Bool.not_eq_true] at h
        rw [processEventsAux_empty_neg digest options name attrs rest g ps c h] at he
        rcases List.mem_cons.mp he with he' | he'
        · subst he'; rfl
        · exact ih _ _ _ (fun x hx => hs x (by simp [hx])) e he'
    | endE name =>
      simp only [processEventsAux] at he
      rcases List.mem_cons.mp he with he' | he'
      · subst he'; rfl
      · exact ih _ _ _ (fun x hx => hs x (by simp [hx])) e he'
    | textE s =>
      simp only [processEventsAux] at he
      rcases List.mem_cons.mp he with he' | he'
      · subst he'; exact hs (.textE s) (by simp)
      · exact ih _ _ _ (fun x hx => hs x (by simp [hx])) e he'
    | cdataE s =>
      simp only [processEventsAux] at he
      rcases List.mem_cons.mp he with he' | he'
      · subst he'; rfl
      · exact ih _ _ _ (fun x hx => hs x (by simp [hx])) e he'
    | commentE s =>
      simp only [processEventsAux] at he
      rcases List.mem_cons.mp he with he' | he'
      · subst he'; rfl
      · exact ih _ _ _ (fun x hx => hs x (by simp [hx])) e he'
    | piE s =>
      simp only [processEventsAux] at he
      rcases List.mem_cons.mp he with he' | he'
      · subst he'; rfl
      · exact ih _ _ _ (fun x hx => hs x (by simp [hx])) e he'
    | doctypeE s =>
      simp only [processEventsAux] at he
      rcases List.mem_cons.mp he with he' | he'
      · subst he'; rfl
      · exact ih _ _ _ (fun x hx => hs x (by simp [hx])) e he'

theorem xmlProcess_idem (digest : String → String) (options : IdOptions)
    (how : options.overwrite = false) (es : List XmlEvent) (g g2 : IdGenerator) :
    (xmlProcess digest options g2 ((xmlProcess digest options g es).1)).1
      = (xmlProcess digest options g es).1 := by
  have htr : ∀ e ∈ (xmlProcess digest options g es).1, trimmedEvent e = true := by
    intro e he
    exact processEventsAux_trimmed digest options (trimText es) g [] 0
      (trimText_all_trimmed es) e he
  have hset : ∀ e ∈ (xmlProcess digest options g es).1, settledEvent options e = true :=
    fun e he => processEventsAux_settled digest options how (trimText es) g [] 0 e he
  show (processEventsAux digest options (trimText ((xmlProcess digest options g es).1))
      g2 [] 0).1 = (xmlProcess digest options g es).1
  rw [trimText_id_of_trimmed _ htr,
    processEventsAux_id_of_settled digest options _ g2 [] 0 hset]

/-! ## Output as a function of document, options and used-identifier set -/

/-- The pre-uniqueness candidate each strategy builds for a node: it depends
only on the node, the options and the digest, never on the generator. -/
def baseOf (digest : String → String) (node : AstNode) (options : IdOptions) : String :=
  match options.strategy with
  | .hash => options.pfx ++ (digest (hashContent node.nodeType node.path)).take 8
  | .slug =>
    if node.textContent.getD "" = "" then
      options.pfx ++ (digest (hashContent "unknown" [])).take 8
    else options.pfx ++ slugify (node.textContent.getD "")
  | .path =>
    options.pfx ++ node.nodeType ++
      (if node.path = [] then ""
       else "-" ++ String.intercalate "-" (node.path.map natRepr))

theorem generateIdForNode_eq_baseOf (digest : String → String) (g : IdGenerator)
    (node : AstNode) (options : IdOptions) :
    generateIdForNode digest g node options = ensureUnique g (baseOf digest node options) := by
  unfold generateIdForNode baseOf generateHashId generateSlugId generatePathId
  cases options.strategy
  · rfl
  · by_cases h : node.textContent.getD "" = ""
    · rw [if_pos h, if_pos h]; rfl
    · rw [if_neg h, if_neg h]
  · rfl

theorem ensureUnique_usedIds_congr (g g' : IdGenerator) (h : g.usedIds = g'.usedIds)
    (id : String) :
    (ensureUnique g id).1 = (ensureUnique g' id).1
    ∧ (ensureUnique g id).2.usedIds = (ensureUnique g' id).2.usedIds := by
  unfold ensureUnique
  rw [h]
  by_cases hm : id ∈ g'.usedIds <;> simp [hm]

theorem generateIdForNode_usedIds_congr (digest : String → String) (node : AstNode)
    (options : IdOptions) (g g' : IdGenerator) (h : g.usedIds = g'.usedIds) :
    (generateIdForNode digest g node options).1 = (generateIdForNode digest g' node options).1
    ∧ (generateIdForNode digest g node options).2.usedIds
      = (generateIdForNode digest g' node options).2.usedIds := by
  rw [generateIdForNode_eq_baseOf, generateIdForNode_eq_baseOf]
  exact ensureUnique_usedIds_congr g g' h _

theorem processEventsAux_usedIds_congr (digest : String → String) (options : IdOptions) :
    ∀ es g g' ps c, g.usedIds = g'.usedIds →
      (processEventsAux digest options es g ps c).1
        = (processEventsAux digest options es g' ps c).1
      ∧ (processEventsAux digest options es g ps c).2.usedIds
        = (processEventsAux digest options es g' ps c).2.usedIds := by
  intro es
  induction es with
  | nil => intro g g' ps c h; exact ⟨rfl, h⟩
  | cons ev rest ih =>
    intro g g' ps c h
    cases ev with
    | startE name attrs =>
      by_cases hp : shouldProcessNode name options (findAttr attrs options.attr) = true
      · obtain ⟨hid, hused⟩ := generateIdForNode_usedIds_congr digest
          ⟨name, none, [], ps ++ [c]⟩ options g g' h
        obtain ⟨h1, h2⟩ := ih (generateIdForNode digest g ⟨name, none, [], ps ++ [c]⟩ options).2
          (generateIdForNode digest g' ⟨name, none, [], ps ++ [c]⟩ options).2
          (ps ++ [c]) (c + 1) hused
        rw [processEventsAux_start_pos digest options name attrs rest g ps c hp,
          processEventsAux_start_pos digest options name attrs rest g' ps c hp]
        exact ⟨by rw [hid, h1], h2⟩
      · rw [Bool.not_eq_true] at hp
        obtain ⟨h1, h2⟩ := ih g g' (ps ++ [c]) (c + 1) h
        rw [processEventsAux_start_neg digest options name attrs rest g ps c hp,
          processEventsAux_start_neg digest options name attrs rest g' ps c hp]
        exact ⟨by rw [h1], h2⟩
    | emptyE name attrs =>
      by_cases hp : shouldProcessNode name options (findAttr attrs options.attr) = true
      · obtain ⟨hid, hused⟩ := generateIdForNode_usedIds_congr digest
          ⟨name, none, [], ps ++ [c]⟩ options g g' h
        obtain ⟨h1, h2⟩ := ih (generateIdForNode digest g ⟨name, none, [], ps ++ [c]⟩ options).2
          (generateIdForNode digest g' ⟨name, none, [], ps ++ [c]⟩ options).2
          ps (c + 1) hused
        rw [processEventsAux_empty_pos digest options name attrs rest g ps c hp,
          processEventsAux_empty_pos digest options name attrs rest g' ps c hp]
        exact ⟨by rw [hid, h1], h2⟩
      · rw [Bool.not_eq_true] at hp
        obtain ⟨h1, h2⟩ := ih g g' ps (c + 1) h
        rw [processEventsAux_empty_neg digest options name attrs rest g ps c hp,
          processEventsAux_empty_neg digest options name attrs rest g' ps c hp]
        exact ⟨by rw [h1], h2⟩
    | endE name =>
      obtain ⟨h1, h2⟩ := ih g g' ps.dropLast c h
      simp only [processEventsAux]
      exact ⟨by rw [h1], h2⟩
    | textE s =>
      obtain ⟨h1, h2⟩ := ih g g' ps c h
      simp only [processEventsAux]
      exact ⟨by rw [h1], h2⟩
    | cdataE s =>
      obtain ⟨h1, h2⟩ := ih g g' ps c h
      simp only [processEventsAux]
      exact ⟨by rw [h1], h2⟩
    | commentE s =>
      obtain ⟨h1, h2⟩ := ih g g' ps c h
      simp only [processEventsAux]
      exact ⟨by rw [h1], h2⟩
    | piE s =>
      obtain ⟨h1, h2⟩ := ih g g' ps c h
      simp only [processEventsAux]
      exact ⟨by rw [h1], h2⟩
    | doctypeE s =>
      obtain ⟨h1, h2⟩ := ih g g' ps c h
      simp only [processEventsAux]
      exact ⟨by rw [h1], h2⟩

/-! ## HTML engine (`html.rs`)

The engine parses to a node tree and mutates it in place; it is modelled
on trees directly (parsing/serialization are the library's).  The CSS
selector (`Selector::parse` plus `html.select`) is modelled by a selector
grammar covering type selectors (`p`), the universal selector (`*`),
attribute-presence selectors (`[name]`), and the adjacent-sibling
combinator (`A + B`) — enough to express both the specification's examples
and attribute-sensitive selectors; `html.select` yields the matching
elements in document order and `process_node_recursive` is invoked on each
with a fresh path and element index, threading the processor's
generator. -/

/-- A scraper tree node: an element, a text node, or any other non-element
node (comments and the like), which the engine never touches. -/
inductive HNode
  | elementN (name : String) (attrs : List (String × String)) (children : List HNode)
  | textN (s : String)
  | commentN (s : String)

mutual
/-- `ElementRef::text()` feeding `extract_text_content`: the trimmed,
non-empty descendant text fragments of a node, in document order. -/
def textFragments : HNode → List String
  | .textN s => if trimString s = "" then [] else [trimString s]
  | .commentN _ => []
  | .elementN _ _ cs => textFragmentsList cs

def textFragmentsList : List HNode → List String
  | [] => []
  | c :: rest => textFragments c ++ textFragmentsList rest
end

/-- `HtmlProcessor::extract_text_content`: the fragments joined by single
spaces. -/
def extractTextContent (n : HNode) : String :=
  String.intercalate " " (textFragments n)

mutual
/-- `HtmlProcessor::process_node_recursive`: process the node itself
(lookup, policy, generation, attribute mutation), then its children with
the element index pushed onto the path; each child is visited with its
sibling position as element index. -/
def processHNode (digest : String → String) (options : IdOptions)
    (g : IdGenerator) (path : List Nat) (elementIndex : Nat) :
    HNode → HNode × IdGenerator
  | .textN s => (.textN s, g)
  | .commentN s => (.commentN s, g)
  | .elementN name attrs children =>
    let existingId := findAttr attrs options.attr
    let r :=
      if shouldProcessNode name options existingId then
        let textContent := if options.strategy = .slug
          then some (extractTextContent (.elementN name attrs children)) else none
        let rid := generateIdForNode digest g ⟨name, textContent, [], path⟩ options
        let attrs1 := if options.overwrite && existingId.isSome
          then removeAttr attrs options.attr else attrs
        let attrs2 := if existingId.isNone || options.overwrite
          then setAttribute attrs1 options.attr rid.1 else attrs1
        (attrs2, rid.2)
      else (attrs, g)
    let rc := processHNodes digest options r.2 (path ++ [elementIndex]) 0 children
    (.elementN name r.1 rc.1, rc.2)

def processHNodes (digest : String → String) (options : IdOptions)
    (g : IdGenerator) (path : List Nat) (i : Nat) :
    List HNode → List HNode × IdGenerator
  | [] => ([], g)
  | c :: rest =>
    let rc := processHNode digest options g path i c
    let rr := processHNodes digest options rc.2 path (i + 1) rest
    (rc.1 :: rr.1, rr.2)
end

/-- The modelled CSS selector grammar: type selector, universal selector,
attribute-presence selector, adjacent-sibling combinator. -/
inductive CssSel
  | tagS (name : String)
  | univS
  | attrPresS (attrName : String)
  | adjS (left : CssSel) (right : CssSel)
deriving DecidableEq

/-- A selector that never tests the given attribute name. -/
def attrInsensitive (attr : String) : CssSel → Bool
  | .tagS _ => true
  | .univS => true
  | .attrPresS a => a ≠ attr
  | .adjS l r => attrInsensitive attr l && attrInsensitive attr r

/-- Split a selector's characters on the adjacent-sibling combinator
separator. -/
def splitOnPlus : List Char → List Char → List (List Char)
  | [], acc => [acc.reverse]
  | ' ' :: '+' :: ' ' :: rest, acc => acc.reverse :: splitOnPlus rest []
  | c :: rest, acc => splitOnPlus rest (c :: acc)

/-- Parse one compound: `*`, `[name]`, or a tag name. -/
def parseCompound (cs : List Char) : Option CssSel :=
  match cs with
  | ['*'] => some .univS
  | '[' :: rest =>
    if rest.getLast? = some ']' then
      let inner := rest.dropLast
      if inner ≠ [] && inner.all (fun c => c.isAlphanum || c = '-') then
        some (.attrPresS ⟨inner⟩)
      else none
    else none
  | _ =>
    if cs ≠ [] && cs.all (fun c => c.isAlphanum || c = '-') then some (.tagS ⟨cs⟩)
    else none

/-- `Selector::parse` over the modelled grammar.  A string outside the
grammar parses to `none`; in the program such a string makes
`Selector::parse` fail and `process` return an error before any traversal,
a path no claim exercises. -/
def parseSelector (s : String) : Option CssSel :=
  match splitOnPlus s.data [] with
  | [] => none
  | p :: rest =>
    rest.foldl
      (fun acc q => acc.bind fun l => (parseCompound q).map fun r => CssSel.adjS l r)
      (parseCompound p)

/-- The index of the nearest preceding element sibling, skipping text and
comment nodes, as the CSS adjacent-sibling combinator requires. -/
def prevElem (cs : List HNode) : Nat → Option Nat
  | 0 => none
  | i + 1 =>
    match cs[i]? with
    | some (.elementN _ _ _) => some i
    | _ => prevElem cs i

/-- Whether the selector matches the node at index `i` of the sibling list
`cs`. -/
def matchesAt : CssSel → List HNode → Nat → Bool
  | .tagS n, cs, i =>
    match cs[i]? with
    | some (.elementN m _ _) => m = n
    | _ => false
  | .univS, cs, i =>
    match cs[i]? with
    | some (.elementN _ _ _) => true
    | _ => false
  | .attrPresS a, cs, i =>
    match cs[i]? with
    | some (.elementN _ attrs _) => (findAttr attrs a).isSome
    | _ => false
  | .adjS l r, cs, i =>
    matchesAt r cs i &&
      (match prevElem cs i with
       | some j => matchesAt l cs j
       | none => false)

mutual
/-- Collect the positions of the elements matching a parsed selector, in
document order; each node is matched in its sibling context. -/
def collectMatches (sel : CssSel) (pos : List Nat) (siblings : List HNode)
    (i : Nat) : HNode → List (List Nat)
  | .elementN _ _ children =>
    (if matchesAt sel siblings i then [pos] else [])
      ++ collectMatchesList sel pos children 0 children
  | .textN _ => []
  | .commentN _ => []

def collectMatchesList (sel : CssSel) (pos : List Nat) (siblings : List HNode)
    (i : Nat) : List HNode → List (List Nat)
  | [] => []
  | c :: rest =>
    collectMatches sel (pos ++ [i]) siblings i c
      ++ collectMatchesList sel pos siblings (i + 1) rest
end

/-- `html.select(selector)`: the positions (child-index paths) of the
elements matched by the parsed selector, in document order; the root is
matched with itself as its only sibling. -/
def matchedPaths (sel : String) (pos : List Nat) (doc : HNode) : List (List Nat) :=
  match parseSelector sel with
  | some c => collectMatches c pos [doc] 0 doc
  | none => []

/-- The subtree of a tree at a child-index path. -/
def subtreeAt : List Nat → HNode → Option HNode
  | [], n => some n
  | i :: rest, .elementN _ _ cs =>
    match cs[i]? with
    | some c => subtreeAt rest c
    | none => none
  | _ :: _, .textN _ => none
  | _ :: _, .commentN _ => none

/-- In-place mutation of the subtree at a path (the tree arena with stable
node ids, restricted to the single node being rewritten). -/
def updateAt (f : HNode → IdGenerator → HNode × IdGenerator) :
    List Nat → HNode → IdGenerator → HNode × IdGenerator
  | [], n, g => f n g
  | i :: rest, .elementN name attrs cs, g =>
    match cs[i]? with
    | some c =>
      let rc := updateAt f rest c g
      (.elementN name attrs (cs.set i rc.1), rc.2)
    | none => (.elementN name attrs cs, g)
  | _ :: _, .textN s, g => (.textN s, g)
  | _ :: _, .commentN s, g => (.commentN s, g)

/-- The selector loop of `HtmlProcessor::process`: run
`process_node_recursive` on each matched node in turn, on the same tree,
threading the generator. -/
def foldUpdate (digest : String → String) (options : IdOptions) :
    List (List Nat) → HNode → IdGenerator → HNode × IdGenerator
  | [], t, g => (t, g)
  | p :: ps, t, g =>
    let r := updateAt (fun s h => processHNode digest options h [] 0 s) p t g
    foldUpdate digest options ps r.1 r.2

/-- `HtmlProcessor::process` on the parsed tree, starting from the
processor's current generator state. -/
def processHtml (digest : String → String) (options : IdOptions)
    (g : IdGenerator) (doc : HNode) : HNode × IdGenerator :=
  match options.selector with
  | none => processHNode digest options g [] 0 doc
  | some sel => foldUpdate digest options (matchedPaths sel [] doc) doc g

/-! ## Slug text extraction (C7) -/

/-- The extraction the specification describes for C7 (direct text-node
children only, trimmed, empties skipped, joined by single spaces), stated
for comparison with the code's `extractTextContent`. -/
def extractTextDirect : HNode → String
  | .elementN _ _ cs =>
    String.intercalate " " (cs.filterMap (fun c =>
      match c with
      | .textN s => if trimString s = "" then none else some (trimString s)
      | _ => none))
  | _ => ""

/-- The attribute list at the root of a tree (empty for non-elements). -/
def rootAttrs : HNode → List (String × String)
  | .elementN _ a _ => a
  | _ => []

/-- C7 (counterexample).  On `<div>Hello <span>World</span>!</div>` the
code's extraction includes the nested `World`, the spec's direct-children
extraction does not, and under the Slug strategy the identifier stored on
the `div` is built from the descendant-inclusive text. -/
theorem claim_C7_counterexample :
    extractTextContent
      (.elementN "div" [] [.textN "Hello ", .elementN "span" [] [.textN "World"], .textN "!"])
      = "Hello World !"
    ∧ extractTextDirect
      (.elementN "div" [] [.textN "Hello ", .elementN "span" [] [.textN "World"], .textN "!"])
      = "Hello !"
    ∧ findAttr (rootAttrs
        (processHNode digA ⟨"data-ast-id", .slug, "el-", false, none, [], []⟩
          IdGenerator.new [] 0
          (.elementN "div" []
            [.textN "Hello ", .elementN "span" [] [.textN "World"], .textN "!"])).1)
        "data-ast-id"
      = some "el-hello-world" := by
  refine ⟨by decide, by decide, by decide⟩

theorem findAttr_setAttribute (l : List (String × String)) (a v : String) :
    findAttr (setAttribute l a v) a = some v := by
  induction l with
  | nil => simp [setAttribute, findAttr, List.find?]
  | cons x rest ih =>
    by_cases hx : x.1 = a
    · simp [setAttribute, hx, findAttr, List.find?]
    · simp only [setAttribute, if_neg hx]
      simpa [findAttr, List.find?, hx] using ih

theorem shouldProcess_none_or_overwrite (nodeName : String) (options : IdOptions)
    (existingId : Option String)
    (h : shouldProcessNode nodeName options existingId = true) :
    (existingId.isNone || options.overwrite) = true := by
  cases existingId with
  | none => rfl
  | some v =>
    cases how : options.overwrite with
    | true => simp
    | false => simp [shouldProcessNode, how] at h

/-- C7 (amended).  Under the Slug strategy, the text an accepted element's
identifier is built from is `extractTextContent`: every descendant text
node (direct or nested), trimmed, empty fragments skipped, joined by
single spaces; the stored attribute value is the slug of that text. -/
theorem claim_C7_slug_uses_descendant_text (digest : String → String)
    (options : IdOptions) (g : IdGenerator) (path : List Nat) (i : Nat)
    (name : String) (attrs : List (String × String)) (children : List HNode)
    (hs : options.strategy = .slug)
    (hp : shouldProcessNode name options (findAttr attrs options.attr) = true) :
    findAttr (rootAttrs
        (processHNode digest options g path i (.elementN name attrs children)).1)
      options.attr
    = some (generateSlugId digest g
        (extractTextContent (.elementN name attrs children)) options.pfx).1 := by
  have hor := shouldProcess_none_or_overwrite name options
    (findAttr attrs options.attr) hp
  simp only [processHNode, hp, if_true, hs, if_pos rfl, rootAttrs]
  rw [if_pos hor]
  rw [show generateIdForNode digest g
      ⟨name, some (extractTextContent (.elementN name attrs children)), [], path⟩ options
    = generateSlugId digest g (extractTextContent (.elementN name attrs children))
        options.pfx from by
    simp [generateIdForNode, hs]]
  exact findAttr_setAttribute _ options.attr _

/-- Closed witness for the amended C7 on the `div`/`span` example. -/
theorem claim_C7_slug_uses_descendant_text_witness :
    ((⟨"data-ast-id", .slug, "el-", false, none, [], []⟩ : IdOptions).strategy = .slug
     ∧ shouldProcessNode "div" ⟨"data-ast-id", .slug, "el-", false, none, [], []⟩
        (findAttr [] "data-ast-id") = true)
    ∧ findAttr (rootAttrs
        (processHNode digA ⟨"data-ast-id", .slug, "el-", false, none, [], []⟩
          IdGenerator.new [] 0
          (.elementN "div" []
            [.textN "Hello ", .elementN "span" [] [.textN "World"], .textN "!"])).1)
        "data-ast-id"
      = some (generateSlugId digA IdGenerator.new
          (extractTextContent (.elementN "div" []
            [.textN "Hello ", .elementN "span" [] [.textN "World"], .textN "!"]))
          "el-").1 :=
  ⟨⟨by decide, by decide⟩,
   claim_C7_slug_uses_descendant_text digA _ IdGenerator.new [] 0 "div" []
     [.textN "Hello ", .elementN "span" [] [.textN "World"], .textN "!"]
     (by decide) (by decide)⟩

/-! ## HTML selector scoping (C6) -/

/-- The name and attributes of the element at a path. -/
def elementAttrsAt (p : List Nat) (t : HNode) : Option (String × List (String × String)) :=
  match subtreeAt p t with
  | some (.elementN n a _) => some (n, a)
  | _ => none

/-- `isAncestorOf p q`: the path `p` is `q` or an ancestor of `q`. -/
def isAncestorOf : List Nat → List Nat → Bool
  | [], _ => true
  | _ :: _, [] => false
  | i :: p, j :: q => i = j && isAncestorOf p q

/-- C6 (counterexample).  For `<p><em>A</em></p>` with selector `"p"`, the
selector matches only the root `<p>` (position `[]`), yet the nested `<em>`
(position `[0]`, not matched) also receives the attribute, because
`process_node_recursive` descends into the matched node's subtree. -/
theorem claim_C6_counterexample :
    matchedPaths "p" [] (.elementN "p" [] [.elementN "em" [] [.textN "A"]]) = [[]]
    ∧ elementAttrsAt [0]
        (.elementN "p" [] [.elementN "em" [] [.textN "A"]]) = some ("em", [])
    ∧ elementAttrsAt [0]
        (processHtml digA ⟨"data-ast-id", .path, "el-", false, some "p", [], []⟩
          IdGenerator.new (.elementN "p" [] [.elementN "em" [] [.textN "A"]])).1
      = some ("em", [("data-ast-id", "el-em-0")]) := by
  refine ⟨by decide, by decide, by decide⟩

/-! ## Tree path lemmas -/

theorem set_getElem_self {α : Type} : ∀ (l : List α) (i : Nat) (c : α),
    l[i]? = some c → l.set i c = l := by
  intro l
  induction l with
  | nil => intro i c h; simp at h
  | cons x rest ih =>
    intro i c h
    cases i with
    | zero =>
      simp at h
      simp [List.set, h]
    | succ j =>
      simp at h
      simp [List.set, ih j c h]

theorem subtreeAt_append : ∀ (p q : List Nat) (t : HNode),
    subtreeAt (p ++ q) t = (subtreeAt p t).bind (subtreeAt q) := by
  intro p
  induction p with
  | nil => intro q t; simp [subtreeAt]
  | cons i p' ih =>
    intro q t
    cases t with
    | elementN name attrs cs =>
      simp only [List.cons_append, subtreeAt]
      cases h : cs[i]? with
      | none => simp
      | some c => simp [ih q c]
    | textN s => simp [subtreeAt]
    | commentN s => simp [subtreeAt]

theorem isAncestorOf_exists_append : ∀ (p q : List Nat),
    isAncestorOf p q = true → ∃ r, q = p ++ r := by
  intro p
  induction p with
  | nil => intro q _; exact ⟨q, rfl⟩
  | cons i p' ih =>
    intro q h
    cases q with
    | nil => simp [isAncestorOf] at h
    | cons j q' =>
      simp only [isAncestorOf, Bool.and_eq_true, decide_eq_true_eq] at h
      obtain ⟨rfl, h2⟩ := h
      obtain ⟨r, rfl⟩ := ih q' h2
      exact ⟨r, rfl⟩

/-- `updateAt` on a path that leads nowhere leaves everything unchanged. -/
theorem updateAt_invalid (f : HNode → IdGenerator → HNode × IdGenerator) :
    ∀ (p : List Nat) (t : HNode) (g : IdGenerator), subtreeAt p t = none →
      updateAt f p t g = (t, g) := by
  intro p
  induction p with
  | nil => intro t g h; simp [subtreeAt] at h
  | cons i p' ih =>
    intro t g h
    cases t with
    | elementN name attrs cs =>
      simp only [subtreeAt] at h
      cases hc : cs[i]? with
      | none => simp [updateAt, hc]
      | some c =>
        rw [hc] at h
        simp only [updateAt, hc]
        rw [ih c g h, set_getElem_self cs i c hc]
    | textN s => rfl
    | commentN s => rfl

/-- Reading under the rewritten path: the subtree at `p ++ r` after
`updateAt` at `p` is the subtree at `r` of the rewritten node. -/
theorem subtreeAt_updateAt_append (f : HNode → IdGenerator → HNode × IdGenerator) :
    ∀ (p r : List Nat) (t : HNode) (g : IdGenerator) (u : HNode),
      subtreeAt p t = some u →
      subtreeAt (p ++ r) (updateAt f p t g).1 = subtreeAt r (f u g).1 := by
  intro p
  induction p with
  | nil =>
    intro r t g u h
    simp only [subtreeAt] at h
    cases h
    simp [updateAt, subtreeAt]
  | cons i p' ih =>
    intro r t g u h
    cases t with
    | elementN name attrs cs =>
      simp only [subtreeAt] at h
      cases hc : cs[i]? with
      | none => rw [hc] at h; exact absurd h (by simp)
      | some c =>
        rw [hc] at h
        have hlen : i < cs.length := (List.getElem?_eq_some.mp hc).1
        simp only [updateAt, hc, List.cons_append, subtreeAt,
          List.getElem?_set_self hlen]
        exact ih r c g u h
    | textN s => simp [subtreeAt] at h
    | commentN s => simp [subtreeAt] at h

/-- Frame: `updateAt` at `p` does not change the subtree at an unrelated
path `q` (neither path an ancestor of the other). -/
theorem subtreeAt_updateAt_disjoint (f : HNode → IdGenerator → HNode × IdGenerator) :
    ∀ (p q : List Nat) (t : HNode) (g : IdGenerator),
      isAncestorOf p q = false → isAncestorOf q p = false →
      subtreeAt q (updateAt f p t g).1 = subtreeAt q t := by
  intro p
  induction p with
  | nil => intro q t g hpq _; simp [isAncestorOf] at hpq
  | cons i p' ih =>
    intro q t g hpq hqp
    cases q with
    | nil => simp [isAncestorOf] at hqp
    | cons j q' =>
      cases t with
      | elementN name attrs cs =>
        cases hc : cs[i]? with
        | none => simp [updateAt, hc]
        | some c =>
          simp only [updateAt, hc]
          by_cases hij : i = j
          · subst hij
            simp only [isAncestorOf, decide_eq_true_eq, true_and,
              Bool.true_and] at hpq hqp
            have hpq' : isAncestorOf p' q' = false := by simpa using hpq
            have hqp' : isAncestorOf q' p' = false := by simpa using hqp
            have hlen : i < cs.length := (List.getElem?_eq_some.mp hc).1
            simp only [subtreeAt, List.getElem?_set_self hlen, hc]
            exact ih q' c g hpq' hqp'
          · simp only [subtreeAt, List.getElem?_set_ne hij]
      | textN s => rfl
      | commentN s => rfl

/-! ## Shape preservation -/

mutual
/-- A tree with all attribute lists erased: the processing engines never
change anything else. -/
def stripA : HNode → HNode
  | .elementN n _ cs => .elementN n [] (stripAList cs)
  | .textN s => .textN s
  | .commentN s => .commentN s

def stripAList : List HNode → List HNode
  | [] => []
  | c :: rest => stripA c :: stripAList rest
end

mutual
theorem stripA_processHNode (digest : String → String) (options : IdOptions) :
    ∀ (t : HNode) (g : IdGenerator) (path : List Nat) (i : Nat),
      stripA (processHNode digest options g path i t).1 = stripA t := by
  intro t
  cases t with
  | elementN name attrs cs =>
    intro g path i
    simp only [processHNode, stripA, HNode.elementN.injEq]
    exact ⟨trivial, trivial, stripAList_processHNodes digest options cs _ _ _⟩
  | textN s => intro g path i; rfl
  | commentN s => intro g path i; rfl

theorem stripAList_processHNodes (digest : String → String) (options : IdOptions) :
    ∀ (cs : List HNode) (g : IdGenerator) (path : List Nat) (i : Nat),
      stripAList (processHNodes digest options g path i cs).1 = stripAList cs := by
  intro cs
  cases cs with
  | nil => intro g path i; rfl
  | cons c rest =>
    intro g path i
    simp only [processHNodes, stripAList, List.cons.injEq]
    exact ⟨stripA_processHNode digest options c _ _ _,
      stripAList_processHNodes digest options rest _ _ _⟩
end

theorem stripAList_set : ∀ (cs : List HNode) (i : Nat) (c c' : HNode),
    cs[i]? = some c → stripA c' = stripA c →
    stripAList (cs.set i c') = stripAList cs := by
  intro cs
  induction cs with
  | nil => intro i c c' h _; simp at h
  | cons x rest ih =>
    intro i c c' h he
    cases i with
    | zero =>
      simp at h
      subst h
      simp [List.set, stripAList, he]
    | succ j =>
      simp at h
      simp [List.set, stripAList, ih j c c' h he]

theorem stripA_updateAt (digest : String → String) (options : IdOptions) :
    ∀ (p : List Nat) (t : HNode) (g : IdGenerator),
      stripA (updateAt (fun s h => processHNode digest options h [] 0 s) p t g).1
        = stripA t := by
  intro p
  induction p with
  | nil => intro t g; exact stripA_processHNode digest options t g [] 0
  | cons i p' ih =>
    intro t g
    cases t with
    | elementN name attrs cs =>
      cases hc : cs[i]? with
      | none => simp [updateAt, hc]
      | some c =>
        simp only [updateAt, hc, stripA, HNode.elementN.injEq]
        exact ⟨trivial, trivial, stripAList_set cs i c _ hc (ih c g)⟩
    | textN s => rfl
    | commentN s => rfl

theorem stripA_foldUpdate (digest : String → String) (options : IdOptions) :
    ∀ (L : List (List Nat)) (t : HNode) (g : IdGenerator),
      stripA (foldUpdate digest options L t g).1 = stripA t := by
  intro L
  induction L with
  | nil => intro t g; rfl
  | cons p ps ih =>
    intro t g
    simp only [foldUpdate]
    rw [ih, stripA_updateAt]

theorem stripAList_getElem : ∀ (cs : List HNode) (i : Nat),
    (stripAList cs)[i]? = (cs[i]?).map stripA := by
  intro cs
  induction cs with
  | nil => intro i; simp [stripAList]
  | cons c rest ih =>
    intro i
    cases i with
    | zero => simp [stripAList]
    | succ j => simpa [stripAList] using ih j

theorem subtreeAt_stripA : ∀ (q : List Nat) (t : HNode),
    subtreeAt q (stripA t) = (subtreeAt q t).map stripA := by
  intro q
  induction q with
  | nil => intro t; simp [subtreeAt]
  | cons i q' ih =>
    intro t
    cases t with
    | elementN name attrs cs =>
      simp only [stripA, subtreeAt, stripAList_getElem]
      cases hc : cs[i]? with
      | none => simp
      | some c => simpa using ih c
    | textN s => rfl
    | commentN s => rfl

theorem subtreeAt_isSome_congr (q : List Nat) (t t' : HNode) (h : stripA t' = stripA t) :
    (subtreeAt q t').isSome = (subtreeAt q t).isSome := by
  have h1 := subtreeAt_stripA q t'
  have h2 := subtreeAt_stripA q t
  rw [h] at h1
  rw [h2] at h1
  cases hx : subtreeAt q t' <;> cases hy : subtreeAt q t <;>
    simp [hx, hy] at h1 ⊢

/-! ## Settled trees -/

mutual
/-- Every element of the tree would be rejected by the policy engine. -/
def settledNode (options : IdOptions) : HNode → Bool
  | .elementN name attrs cs =>
    !(shouldProcessNode name options (findAttr attrs options.attr))
      && settledNodes options cs
  | .textN _ => true
  | .commentN _ => true

def settledNodes (options : IdOptions) : List HNode → Bool
  | [] => true
  | c :: rest => settledNode options c && settledNodes options rest
end

mutual
theorem processHNode_settled_id (digest : String → String) (options : IdOptions) :
    ∀ (t : HNode), settledNode options t = true →
      ∀ g path i, processHNode digest options g path i t = (t, g) := by
  intro t
  cases t with
  | elementN name attrs cs =>
    intro hs g path i
    simp only [settledNode, Bool.and_eq_true, Bool.not_eq_true'] at hs
    obtain ⟨hp, hcs⟩ := hs
    simp only [processHNode, hp, Bool.false_eq_true, if_false]
    rw [processHNodes_settled_id digest options cs hcs g (path ++ [i]) 0]
  | textN s => intro _ g path i; rfl
  | commentN s => intro _ g path i; rfl

theorem processHNodes_settled_id (digest : String → String) (options : IdOptions) :
    ∀ (cs : List HNode), settledNodes options cs = true →
      ∀ g path i, processHNodes digest options g path i cs = (cs, g) := by
  intro cs
  cases cs with
  | nil => intro _ g path i; rfl
  | cons c rest =>
    intro hs g path i
    simp only [settledNodes, Bool.and_eq_true] at hs
    obtain ⟨hc, hrest⟩ := hs
    simp only [processHNodes]
    rw [processHNode_settled_id digest options c hc g path i,
      processHNodes_settled_id digest options rest hrest g path (i + 1)]
end

mutual
theorem processHNode_settles (digest : String → String) (options : IdOptions)
    (how : options.overwrite = false) :
    ∀ (t : HNode) (g : IdGenerator) (path : List Nat) (i : Nat),
      settledNode options (processHNode digest options g path i t).1 = true := by
  intro t
  cases t with
  | elementN name attrs cs =>
    intro g path i
    by_cases hp : shouldProcessNode name options (findAttr attrs options.attr) = true
    · have hnone := shouldProcess_existing_none name options _ hp how
      have hcond1 : (options.overwrite && (findAttr attrs options.attr).isSome) = false := by
        rw [how]; simp
      have hcond2 : ((findAttr attrs options.attr).isNone || options.overwrite) = true := by
        rw [hnone]; simp
      simp only [processHNode, hp, if_true, hcond1, Bool.false_eq_true, if_false,
        hcond2, settledNode, Bool.and_eq_true, Bool.not_eq_true']
      refine ⟨?_, processHNodes_settle digest options how cs _ _ _⟩
      rw [findAttr_setAttribute attrs options.attr _]
      exact shouldProcess_some_no_overwrite name options _ how
    · rw [Bool.not_eq_true] at hp
      simp only [processHNode, hp, Bool.false_eq_true, if_false, settledNode,
        Bool.and_eq_true, Bool.not_eq_true']
      refine ⟨?_, processHNodes_settle digest options how cs _ _ _⟩
      simp [hp]

  | textN s => intro g path i; rfl
  | commentN s => intro g path i; rfl

theorem processHNodes_settle (digest : String → String) (options : IdOptions)
    (how : options.overwrite = false) :
    ∀ (cs : List HNode) (g : IdGenerator) (path : List Nat) (i : Nat),
      settledNodes options (processHNodes digest options g path i cs).1 = true := by
  intro cs
  cases cs with
  | nil => intro g path i; rfl
  | cons c rest =>
    intro g path i
    simp only [processHNodes, settledNodes, Bool.and_eq_true]
    exact ⟨processHNode_settles digest options how c _ _ _,
      processHNodes_settle digest options how rest _ _ _⟩
end

theorem settledNodes_getElem (options : IdOptions) :
    ∀ (cs : List HNode) (i : Nat) (c : HNode), settledNodes options cs = true →
      cs[i]? = some c → settledNode options c = true := by
  intro cs
  induction cs with
  | nil => intro i c _ h; simp at h
  | cons x rest ih =>
    intro i c hs h
    simp only [settledNodes, Bool.and_eq_true] at hs
    cases i with
    | zero => simp at h; subst h; exact hs.1
    | succ j => simp at h; exact ih j c hs.2 h

theorem settledNode_subtreeAt (options : IdOptions) :
    ∀ (r : List Nat) (t s : HNode), settledNode options t = true →
      subtreeAt r t = some s → settledNode options s = true := by
  intro r
  induction r with
  | nil => intro t s ht h; simp [subtreeAt] at h; subst h; exact ht
  | cons i r' ih =>
    intro t s ht h
    cases t with
    | elementN name attrs cs =>
      simp only [subtreeAt] at h
      cases hc : cs[i]? with
      | none => rw [hc] at h; simp at h
      | some c =>
        rw [hc] at h
        simp only [settledNode, Bool.and_eq_true] at ht
        exact ih c s (settledNodes_getElem options cs i c ht.2 hc) h
    | textN s' => simp [subtreeAt] at h
    | commentN s' => simp [subtreeAt] at h

theorem processHNodes_getElem (digest : String → String) (options : IdOptions) :
    ∀ (cs : List HNode) (g : IdGenerator) (path : List Nat) (i j : Nat) (c : HNode),
      cs[j]? = some c →
      ∃ g', (processHNodes digest options g path i cs).1[j]?
        = some (processHNode digest options g' path (i + j) c).1 := by
  intro cs
  induction cs with
  | nil => intro g path i j c h; simp at h
  | cons x rest ih =>
    intro g path i j c h
    cases j with
    | zero =>
      simp at h
      subst h
      exact ⟨g, by simp [processHNodes]⟩
    | succ k =>
      simp at h
      obtain ⟨g', hg⟩ := ih (processHNode digest options g path i x).2 path (i + 1) k c h
      refine ⟨g', ?_⟩
      simp only [processHNodes, List.getElem?_cons_succ]
      rw [show i + (k + 1) = i + 1 + k from by omega]
      exact hg

theorem processHNode_element_shape (digest : String → String) (options : IdOptions)
    (g : IdGenerator) (path : List Nat) (i : Nat) (name : String)
    (attrs : List (String × String)) (cs : List HNode) :
    ∃ attrs2 g2,
      (processHNode digest options g path i (.elementN name attrs cs)).1
        = .elementN name attrs2 (processHNodes digest options g2 (path ++ [i]) 0 cs).1 :=
  ⟨_, _, rfl⟩

theorem processHNode_preserves_settled_subtree (digest : String → String)
    (options : IdOptions) :
    ∀ (r : List Nat) (t s : HNode) (g : IdGenerator) (path : List Nat) (i : Nat),
      subtreeAt r t = some s → settledNode options s = true →
      subtreeAt r (processHNode digest options g path i t).1 = some s := by
  intro r
  induction r with
  | nil =>
    intro t s g path i h hs
    have ht : t = s := by simpa [subtreeAt] using h
    subst ht
    rw [processHNode_settled_id digest options t hs g path i]
    rfl
  | cons j r' ih =>
    intro t s g path i h hs
    cases t with
    | elementN name attrs cs =>
      simp only [subtreeAt] at h
      cases hc : cs[j]? with
      | none => rw [hc] at h; simp at h
      | some c =>
        rw [hc] at h
        obtain ⟨attrs2, g2, hshape⟩ :=
          processHNode_element_shape digest options g path i name attrs cs
        rw [hshape]
        obtain ⟨g', hg⟩ := processHNodes_getElem digest options cs g2 (path ++ [i]) 0 j c hc
        rw [show (0 : Nat) + j = j from by omega] at hg
        simp only [subtreeAt, hg]
        exact ih c s g' (path ++ [i]) j h hs
    | textN s' => simp [subtreeAt] at h
    | commentN s' => simp [subtreeAt] at h

theorem updateAt_settled_id (digest : String → String) (options : IdOptions) :
    ∀ (p : List Nat) (t : HNode) (g : IdGenerator),
      (∀ s, subtreeAt p t = some s → settledNode options s = true) →
      updateAt (fun s h => processHNode digest options h [] 0 s) p t g = (t, g) := by
  intro p
  induction p with
  | nil =>
    intro t g h
    exact processHNode_settled_id digest options t (h t rfl) g [] 0
  | cons i p' ih =>
    intro t g h
    cases t with
    | elementN name attrs cs =>
      cases hc : cs[i]? with
      | none => simp [updateAt, hc]
      | some c =>
        have hsub : ∀ s, subtreeAt p' c = some s → settledNode options s = true := by
          intro s hs
          exact h s (by simp [subtreeAt, hc, hs])
        simp only [updateAt, hc]
        rw [ih c g hsub, set_getElem_self cs i c hc]
    | textN s => rfl
    | commentN s => rfl

theorem updateAt_preserves_settled_subtree (digest : String → String)
    (options : IdOptions) (p q : List Nat) (t : HNode) (g : IdGenerator) (s : HNode)
    (hq : subtreeAt q t = some s) (hs : settledNode options s = true) :
    subtreeAt q
      (updateAt (fun s h => processHNode digest options h [] 0 s) p t g).1 = some s := by
  by_cases hpq : isAncestorOf p q = true
  · obtain ⟨r, rfl⟩ := isAncestorOf_exists_append p q hpq
    rw [subtreeAt_append] at hq
    cases hu : subtreeAt p t with
    | none => rw [hu] at hq; simp at hq
    | some u =>
      rw [hu] at hq
      simp only [Option.some_bind] at hq
      rw [subtreeAt_updateAt_append _ p r t g u hu]
      exact processHNode_preserves_settled_subtree digest options r u s g [] 0 hq hs
  · by_cases hqp : isAncestorOf q p = true
    · obtain ⟨w, rfl⟩ := isAncestorOf_exists_append q p hqp
      cases hv : subtreeAt (q ++ w) t with
      | none =>
        rw [updateAt_invalid _ _ t g hv]
        exact hq
      | some v =>
        have hv' : subtreeAt w s = some v := by
          rw [subtreeAt_append, hq] at hv
          simpa using hv
        have hsv := settledNode_subtreeAt options w s v hs hv'
        rw [updateAt_settled_id digest options (q ++ w) t g (fun s' hs' => by
          rw [hv] at hs'
          rw [← Option.some.inj hs']
          exact hsv)]
        exact hq
    · rw [Bool.not_eq_true] at hpq hqp
      rw [subtreeAt_updateAt_disjoint _ p q t g hpq hqp]
      exact hq

theorem foldUpdate_preserves_settled_subtree (digest : String → String)
    (options : IdOptions) :
    ∀ (L : List (List Nat)) (t : HNode) (g : IdGenerator) (q : List Nat) (s : HNode),
      subtreeAt q t = some s → settledNode options s = true →
      subtreeAt q (foldUpdate digest options L t g).1 = some s := by
  intro L
  induction L with
  | nil => intro t g q s hq _; exact hq
  | cons p ps ih =>
    intro t g q s hq hs
    simp only [foldUpdate]
    exact ih _ _ q s
      (updateAt_preserves_settled_subtree digest options p q t g s hq hs) hs

theorem foldUpdate_settles_matched (digest : String → String) (options : IdOptions)
    (how : options.overwrite = false) :
    ∀ (L : List (List Nat)) (t : HNode) (g : IdGenerator) (q : List Nat),
      q ∈ L → ∀ s, subtreeAt q (foldUpdate digest options L t g).1 = some s →
        settledNode options s = true := by
  intro L
  induction L with
  | nil => intro t g q hq; simp at hq
  | cons p ps ih =>
    intro t g q hq s hs
    simp only [foldUpdate] at hs
    rcases List.mem_cons.mp hq with rfl | hq'
    · cases hu : subtreeAt q t with
      | none =>
        rw [updateAt_invalid _ q t g hu] at hs
        have hshape := stripA_foldUpdate digest options ps t g
        have hsome := subtreeAt_isSome_congr q t
          (foldUpdate digest options ps t g).1 hshape
        rw [hs, hu] at hsome
        simp at hsome
      | some u =>
        have h1 : subtreeAt q
            (updateAt (fun s h => processHNode digest options h [] 0 s) q t g).1
            = some ((processHNode digest options g [] 0 u).1) := by
          have := subtreeAt_updateAt_append
            (fun s h => processHNode digest options h [] 0 s) q [] t g u hu
          simpa using this
        have hset := processHNode_settles digest options how u g [] 0
        have h2 := foldUpdate_preserves_settled_subtree digest options ps
          (updateAt (fun s h => processHNode digest options h [] 0 s) q t g).1
          (updateAt (fun s h => processHNode digest options h [] 0 s) q t g).2
          q _ h1 hset
        rw [h2] at hs
        rw [← Option.some.inj hs]
        exact hset
    · exact ih _ _ q hq' s hs

theorem foldUpdate_id_of_settled (digest : String → String) (options : IdOptions) :
    ∀ (L : List (List Nat)) (t : HNode) (g : IdGenerator),
      (∀ q ∈ L, ∀ s, subtreeAt q t = some s → settledNode options s = true) →
      foldUpdate digest options L t g = (t, g) := by
  intro L
  induction L with
  | nil => intro t g _; rfl
  | cons p ps ih =>
    intro t g h
    simp only [foldUpdate]
    rw [updateAt_settled_id digest options p t g (fun s hs => h p (by simp) s hs)]
    exact ih t g (fun q hq s hs => h q (by simp [hq]) s hs)

/-! ### Attribute extension

With `overwrite = false` a pass can only append the configured attribute
to elements that lacked it; `attrExt` relates a tree to such an
extension.  Matching by a selector that never tests the configured
attribute cannot see the difference, so such a selector's match set is
stable across passes — a selector that does test it (C3's counterexample)
is not covered. -/

mutual
/-- `t'` is `t` with the attribute `attr` possibly appended on some
elements; nothing else differs. -/
def attrExt (attr : String) : HNode → HNode → Prop
  | .textN s, .textN s' => s' = s
  | .commentN s, .commentN s' => s' = s
  | .elementN n a cs, .elementN n' a' cs' =>
    n' = n ∧ (a' = a ∨ ∃ v, a' = a ++ [(attr, v)]) ∧ attrExtList attr cs cs'
  | _, _ => False

def attrExtList (attr : String) : List HNode → List HNode → Prop
  | [], [] => True
  | c :: cs, c' :: cs' => attrExt attr c c' ∧ attrExtList attr cs cs'
  | _, _ => False
end

mutual
theorem attrExt_refl (attr : String) : ∀ t : HNode, attrExt attr t t := by
  intro t
  cases t with
  | elementN name attrs cs =>
    exact ⟨rfl, Or.inl rfl, attrExtList_refl attr cs⟩
  | textN s => exact rfl
  | commentN s => exact rfl

theorem attrExtList_refl (attr : String) : ∀ cs : List HNode, attrExtList attr cs cs := by
  intro cs
  cases cs with
  | nil => exact trivial
  | cons c rest => exact ⟨attrExt_refl attr c, attrExtList_refl attr rest⟩
end

theorem setAttribute_append_of_absent (l : List (String × String)) (a v : String)
    (h : findAttr l a = none) : setAttribute l a v = l ++ [(a, v)] := by
  induction l with
  | nil => rfl
  | cons x rest ih =>
    by_cases hx : x.1 = a
    · simp [findAttr, List.find?, hx] at h
    · have h' : findAttr rest a = none := by
        simpa [findAttr, List.find?, hx] using h
      simp [setAttribute, hx, ih h']

mutual
theorem processHNode_attrExt (digest : String → String) (options : IdOptions)
    (how : options.overwrite = false) :
    ∀ (t : HNode) (g : IdGenerator) (path : List Nat) (i : Nat),
      attrExt options.attr t (processHNode digest options g path i t).1 := by
  intro t
  cases t with
  | elementN name attrs cs =>
    intro g path i
    by_cases hp : shouldProcessNode name options (findAttr attrs options.attr) = true
    · have hnone := shouldProcess_existing_none name options _ hp how
      have hcond1 : (options.overwrite && (findAttr attrs options.attr).isSome) = false := by
        rw [how]; simp
      have hcond2 : ((findAttr attrs options.attr).isNone || options.overwrite) = true := by
        rw [hnone]; simp
      simp only [processHNode, hp, if_true, hcond1, Bool.false_eq_true, if_false,
        hcond2]
      exact ⟨rfl, Or.inr ⟨_, setAttribute_append_of_absent attrs options.attr _ hnone⟩,
        processHNodes_attrExt digest options how cs _ _ _⟩
    · rw [Bool.not_eq_true] at hp
      simp only [processHNode, hp, Bool.false_eq_true, if_false]
      exact ⟨rfl, Or.inl rfl, processHNodes_attrExt digest options how cs _ _ _⟩
  | textN s => intro g path i; exact rfl
  | commentN s => intro g path i; exact rfl

theorem processHNodes_attrExt (digest : String → String) (options : IdOptions)
    (how : options.overwrite = false) :
    ∀ (cs : List HNode) (g : IdGenerator) (path : List Nat) (i : Nat),
      attrExtList options.attr cs (processHNodes digest options g path i cs).1 := by
  intro cs
  cases cs with
  | nil => intro g path i; exact trivial
  | cons c rest =>
    intro g path i
    exact ⟨processHNode_attrExt digest options how c _ _ _,
      processHNodes_attrExt digest options how rest _ _ _⟩
end

theorem attrExtList_set (attr : String) :
    ∀ (cs : List HNode) (i : Nat) (c c' : HNode),
      cs[i]? = some c → attrExt attr c c' → attrExtList attr cs (cs.set i c') := by
  intro cs
  induction cs with
  | nil => intro i c c' h _; simp at h
  | cons x rest ih =>
    intro i c c' h he
    cases i with
    | zero =>
      simp at h
      subst h
      exact ⟨he, attrExtList_refl attr rest⟩
    | succ j =>
      simp at h
      exact ⟨attrExt_refl attr x, ih j c c' h he⟩

theorem updateAt_attrExt (digest : String → String) (options : IdOptions)
    (how : options.overwrite = false) :
    ∀ (p : List Nat) (t : HNode) (g : IdGenerator),
      attrExt options.attr t
        (updateAt (fun s h => processHNode digest options h [] 0 s) p t g).1 := by
  intro p
  induction p with
  | nil => intro t g; exact processHNode_attrExt digest options how t g [] 0
  | cons i p' ih =>
    intro t g
    cases t with
    | elementN name attrs cs =>
      cases hc : cs[i]? with
      | none => simp only [updateAt, hc]; exact attrExt_refl options.attr _
      | some c =>
        simp only [updateAt, hc]
        exact ⟨rfl, Or.inl rfl, attrExtList_set options.attr cs i c _ hc (ih c g)⟩
    | textN s => exact rfl
    | commentN s => exact rfl

theorem attrExtList_getElem (attr : String) :
    ∀ (cs cs' : List HNode), attrExtList attr cs cs' → ∀ i : Nat,
      (cs[i]? = none ∧ cs'[i]? = none)
      ∨ ∃ c c', cs[i]? = some c ∧ cs'[i]? = some c' ∧ attrExt attr c c' := by
  intro cs
  induction cs with
  | nil =>
    intro cs' h i
    cases cs' with
    | nil => exact Or.inl ⟨rfl, rfl⟩
    | cons c' rest' => simp [attrExtList] at h
  | cons c rest ih =>
    intro cs' h i
    cases cs' with
    | nil => simp [attrExtList] at h
    | cons c' rest' =>
      obtain ⟨h1, h2⟩ := h
      cases i with
      | zero => exact Or.inr ⟨c, c', by simp, by simp, h1⟩
      | succ j => simpa using ih rest' h2 j

theorem findAttr_append_other (l : List (String × String)) (a b v : String)
    (h : b ≠ a) : findAttr (l ++ [(a, v)]) b = findAttr l b := by
  have hab : a ≠ b := fun hx => h hx.symm
  induction l with
  | nil => simp [findAttr, List.find?, hab]
  | cons x rest ih =>
    by_cases hx : x.1 = b
    · simp [findAttr, List.find?, hx]
    · simpa [findAttr, List.find?, hx] using ih

theorem prevElem_attrExt (attr : String) (cs cs' : List HNode)
    (h : attrExtList attr cs cs') : ∀ i, prevElem cs' i = prevElem cs i := by
  intro i
  induction i with
  | zero => rfl
  | succ j ih =>
    rcases attrExtList_getElem attr cs cs' h j with ⟨h1, h2⟩ | ⟨c, c', h1, h2, he⟩
    · simp only [prevElem, h1, h2]
      exact ih
    · cases c with
      | elementN n a k =>
        cases c' with
        | elementN n' a' k' => simp only [prevElem, h1, h2]
        | textN s => simp [attrExt] at he
        | commentN s => simp [attrExt] at he
      | textN s =>
        cases c' with
        | elementN n' a' k' => simp [attrExt] at he
        | textN s' => simp only [prevElem, h1, h2]; exact ih
        | commentN s' => simp [attrExt] at he
      | commentN s =>
        cases c' with
        | elementN n' a' k' => simp [attrExt] at he
        | textN s' => simp [attrExt] at he
        | commentN s' => simp only [prevElem, h1, h2]; exact ih

theorem matchesAt_attrExt (attr : String) :
    ∀ (sel : CssSel), attrInsensitive attr sel = true →
      ∀ (cs cs' : List HNode), attrExtList attr cs cs' →
        ∀ i, matchesAt sel cs' i = matchesAt sel cs i := by
  intro sel
  induction sel with
  | tagS n =>
    intro _ cs cs' h i
    rcases attrExtList_getElem attr cs cs' h i with ⟨h1, h2⟩ | ⟨c, c', h1, h2, he⟩
    · simp [matchesAt, h1, h2]
    · cases c with
      | elementN m a k =>
        cases c' with
        | elementN m' a' k' =>
          obtain ⟨hm, _, _⟩ := he
          simp [matchesAt, h1, h2, hm]
        | textN s => simp [attrExt] at he
        | commentN s => simp [attrExt] at he
      | textN s =>
        cases c' with
        | elementN m' a' k' => simp [attrExt] at he
        | textN s' => simp [matchesAt, h1, h2]
        | commentN s' => simp [attrExt] at he
      | commentN s =>
        cases c' with
        | elementN m' a' k' => simp [attrExt] at he
        | textN s' => simp [attrExt] at he
        | commentN s' => simp [matchesAt, h1, h2]
  | univS =>
    intro _ cs cs' h i
    rcases attrExtList_getElem attr cs cs' h i with ⟨h1, h2⟩ | ⟨c, c', h1, h2, he⟩
    · simp [matchesAt, h1, h2]
    · cases c with
      | elementN m a k =>
        cases c' with
        | elementN m' a' k' => simp [matchesAt, h1, h2]
        | textN s => simp [attrExt] at he
        | commentN s => simp [attrExt] at he
      | textN s =>
        cases c' with
        | elementN m' a' k' => simp [attrExt] at he
        | textN s' => simp [matchesAt, h1, h2]
        | commentN s' => simp [attrExt] at he
      | commentN s =>
        cases c' with
        | elementN m' a' k' => simp [attrExt] at he
        | textN s' => simp [attrExt] at he
        | commentN s' => simp [matchesAt, h1, h2]
  | attrPresS b =>
    intro hins cs cs' h i
    have hb : b ≠ attr := by simpa [attrInsensitive] using hins
    rcases attrExtList_getElem attr cs cs' h i with ⟨h1, h2⟩ | ⟨c, c', h1, h2, he⟩
    · simp [matchesAt, h1, h2]
    · cases c with
      | elementN m a k =>
        cases c' with
        | elementN m' a' k' =>
          obtain ⟨_, ha, _⟩ := he
          rcases ha with rfl | ⟨v, rfl⟩
          · simp [matchesAt, h1, h2]
          · simp [matchesAt, h1, h2, findAttr_append_other a attr b v hb]
        | textN s => simp [attrExt] at he
        | commentN s => simp [attrExt] at he
      | textN s =>
        cases c' with
        | elementN m' a' k' => simp [attrExt] at he
        | textN s' => simp [matchesAt, h1, h2]
        | commentN s' => simp [attrExt] at he
      | commentN s =>
        cases c' with
        | elementN m' a' k' => simp [attrExt] at he
        | textN s' => simp [attrExt] at he
        | commentN s' => simp [matchesAt, h1, h2]
  | adjS l r ihl ihr =>
    intro hins cs cs' h i
    simp only [attrInsensitive, Bool.and_eq_true] at hins
    simp only [matchesAt, ihr hins.2 cs cs' h i, prevElem_attrExt attr cs cs' h i]
    cases prevElem cs i with
    | none => rfl
    | some j => simp [ihl hins.1 cs cs' h j]

mutual
theorem collectMatches_attrExt (attr : String) (sel : CssSel)
    (hins : attrInsensitive attr sel = true) :
    ∀ (t t' : HNode) (sib sib' : List HNode) (pos : List Nat) (i : Nat),
      attrExt attr t t' → attrExtList attr sib sib' →
      collectMatches sel pos sib' i t' = collectMatches sel pos sib i t := by
  intro t
  cases t with
  | elementN name attrs cs =>
    intro t' sib sib' pos i ht hsib
    cases t' with
    | elementN name' attrs' cs' =>
      obtain ⟨_, _, hcs⟩ := ht
      simp only [collectMatches, matchesAt_attrExt attr sel hins sib sib' hsib i]
      rw [collectMatchesList_attrExt attr sel hins cs cs' cs cs' pos 0 hcs hcs]
    | textN s => simp [attrExt] at ht
    | commentN s => simp [attrExt] at ht
  | textN s =>
    intro t' sib sib' pos i ht _
    cases t' with
    | elementN name' attrs' cs' => simp [attrExt] at ht
    | textN s' => rfl
    | commentN s' => simp [attrExt] at ht
  | commentN s =>
    intro t' sib sib' pos i ht _
    cases t' with
    | elementN name' attrs' cs' => simp [attrExt] at ht
    | textN s' => simp [attrExt] at ht
    | commentN s' => rfl

theorem collectMatchesList_attrExt (attr : String) (sel : CssSel)
    (hins : attrInsensitive attr sel = true) :
    ∀ (cs cs' sib sib' : List HNode) (pos : List Nat) (i : Nat),
      attrExtList attr cs cs' → attrExtList attr sib sib' →
      collectMatchesList sel pos sib' i cs' = collectMatchesList sel pos sib i cs := by
  intro cs
  cases cs with
  | nil =>
    intro cs' sib sib' pos i h _
    cases cs' with
    | nil => rfl
    | cons c' rest' => simp [attrExtList] at h
  | cons c rest =>
    intro cs' sib sib' pos i h hsib
    cases cs' with
    | nil => simp [attrExtList] at h
    | cons c' rest' =>
      obtain ⟨h1, h2⟩ := h
      simp only [collectMatchesList]
      rw [collectMatches_attrExt attr sel hins c c' sib sib' (pos ++ [i]) i h1 hsib,
        collectMatchesList_attrExt attr sel hins rest rest' sib sib' pos (i + 1) h2 hsib]
end

theorem matchedPaths_foldUpdate_insensitive (digest : String → String)
    (options : IdOptions) (how : options.overwrite = false) (s : String)
    (c : CssSel) (hp : parseSelector s = some c)
    (hins : attrInsensitive options.attr c = true) :
    ∀ (L : List (List Nat)) (doc : HNode) (g : IdGenerator),
      matchedPaths s [] (foldUpdate digest options L doc g).1
        = matchedPaths s [] doc := by
  intro L
  induction L with
  | nil => intro doc g; rfl
  | cons p ps ih =>
    intro doc g
    simp only [foldUpdate]
    rw [ih]
    have hext := updateAt_attrExt digest options how p doc g
    unfold matchedPaths
    rw [hp]
    exact collectMatches_attrExt options.attr c hins doc _ [doc] _ [] 0 hext
      ⟨hext, trivial⟩

/-- Idempotence of the HTML engine under `overwrite = false`, for
fresh-per-call generator states, when no selector is configured or the
configured selector never tests the configured attribute.  (A selector
that does test it can match new elements on the second pass — see the C3
counterexample.) -/
theorem processHtml_idem (digest : String → String) (options : IdOptions)
    (how : options.overwrite = false)
    (hsel : options.selector = none
      ∨ ∃ s c, options.selector = some s ∧ parseSelector s = some c
          ∧ attrInsensitive options.attr c = true)
    (doc : HNode) (g g2 : IdGenerator) :
    (processHtml digest options g2 (processHtml digest options g doc).1).1
      = (processHtml digest options g doc).1 := by
  unfold processHtml
  rcases hsel with hnone | ⟨s, c, hs, hp, hins⟩
  · rw [hnone]
    dsimp only
    rw [processHNode_settled_id digest options _
      (processHNode_settles digest options how doc g [] 0) g2 [] 0]
  · rw [hs]
    dsimp only
    rw [matchedPaths_foldUpdate_insensitive digest options how s c hp hins
      (matchedPaths s [] doc) doc g]
    rw [foldUpdate_id_of_settled digest options _ _ g2
      (fun q hq s' hs' =>
        foldUpdate_settles_matched digest options how (matchedPaths s [] doc)
          doc g q hq s' hs')]

/-! ## Selector frame property (amended C6) -/

theorem elementAttrsAt_updateAt (f : HNode → IdGenerator → HNode × IdGenerator) :
    ∀ (p q : List Nat) (t : HNode) (g : IdGenerator), isAncestorOf p q = false →
      elementAttrsAt q (updateAt f p t g).1 = elementAttrsAt q t := by
  intro p
  induction p with
  | nil => intro q t g h; simp [isAncestorOf] at h
  | cons i p' ih =>
    intro q t g h
    cases t with
    | elementN name attrs cs =>
      cases hc : cs[i]? with
      | none => simp [updateAt, hc]
      | some c =>
        simp only [updateAt, hc]
        cases q with
        | nil => rfl
        | cons j q' =>
          by_cases hij : i = j
          · subst hij
            have h' : isAncestorOf p' q' = false := by simpa [isAncestorOf] using h
            have hlen : i < cs.length := (List.getElem?_eq_some.mp hc).1
            simp only [elementAttrsAt, subtreeAt, List.getElem?_set_self hlen, hc]
            have := ih q' c g h'
            simpa [elementAttrsAt] using this
          · simp only [elementAttrsAt, subtreeAt, List.getElem?_set_ne hij]
    | textN s => rfl
    | commentN s => rfl

theorem elementAttrsAt_foldUpdate (digest : String → String) (options : IdOptions) :
    ∀ (L : List (List Nat)) (q : List Nat) (t : HNode) (g : IdGenerator),
      (∀ p ∈ L, isAncestorOf p q = false) →
      elementAttrsAt q (foldUpdate digest options L t g).1 = elementAttrsAt q t := by
  intro L
  induction L with
  | nil => intro q t g _; rfl
  | cons p ps ih =>
    intro q t g h
    simp only [foldUpdate]
    rw [ih q _ _ (fun x hx => h x (by simp [hx])),
      elementAttrsAt_updateAt _ p q t g (h p (by simp))]

/-- The spec's C6 example document `<div><p>A</p><span>B</span></div>`. -/
def docDivPSpan : HNode :=
  .elementN "div" []
    [.elementN "p" [] [.textN "A"], .elementN "span" [] [.textN "B"]]

/-- Path strategy with selector `"p"`. -/
def optsSelP : IdOptions := ⟨"data-ast-id", .path, "el-", false, some "p", [], []⟩

/-- C6 (amended).  With a selector configured, the engine touches exactly
the matched elements and their descendants: every element whose path has no
selector-matched path as an ancestor-or-self keeps its name and attribute
list unchanged.  On the spec's example, only the `<p>` gains the attribute;
the `<span>` (and the `<div>`) are untouched. -/
theorem claim_C6_selector_scope :
    (∀ (digest : String → String) (options : IdOptions) (g : IdGenerator)
      (doc : HNode) (sel : String) (q : List Nat),
      options.selector = some sel →
      (∀ p ∈ matchedPaths sel [] doc, isAncestorOf p q = false) →
      elementAttrsAt q (processHtml digest options g doc).1 = elementAttrsAt q doc)
    ∧ elementAttrsAt [0] (processHtml digA optsSelP IdGenerator.new docDivPSpan).1
        = some ("p", [("data-ast-id", "el-p")])
    ∧ elementAttrsAt [1] (processHtml digA optsSelP IdGenerator.new docDivPSpan).1
        = some ("span", [])
    ∧ elementAttrsAt [] (processHtml digA optsSelP IdGenerator.new docDivPSpan).1
        = some ("div", []) := by
  refine ⟨?_, by decide, by decide, by decide⟩
  intro digest options g doc sel q hsel hq
  unfold processHtml
  rw [hsel]
  exact elementAttrsAt_foldUpdate digest options (matchedPaths sel [] doc) q doc g hq

/-- Closed witness for the amended C6 at the `<span>` of the example. -/
theorem claim_C6_selector_scope_witness :
    (optsSelP.selector = some "p"
     ∧ ∀ p ∈ matchedPaths "p" [] docDivPSpan, isAncestorOf p [1] = false)
    ∧ elementAttrsAt [1] (processHtml digA optsSelP IdGenerator.new docDivPSpan).1
        = elementAttrsAt [1] docDivPSpan :=
  ⟨⟨by decide, by decide⟩,
   claim_C6_selector_scope.1 digA optsSelP IdGenerator.new docDivPSpan "p" [1]
     (by decide) (by decide)⟩

/-! ## HTML output as a function of document, options, used-identifier set -/

mutual
theorem processHNode_usedIds_congr (digest : String → String) (options : IdOptions) :
    ∀ (t : HNode) (g g' : IdGenerator) (path : List Nat) (i : Nat),
      g.usedIds = g'.usedIds →
      (processHNode digest options g path i t).1 = (processHNode digest options g' path i t).1
      ∧ (processHNode digest options g path i t).2.usedIds
        = (processHNode digest options g' path i t).2.usedIds := by
  intro t
  cases t with
  | elementN name attrs cs =>
    intro g g' path i h
    by_cases hp : shouldProcessNode name options (findAttr attrs options.attr) = true
    · obtain ⟨hid, hused⟩ := generateIdForNode_usedIds_congr digest
        ⟨name, (if options.strategy = .slug
          then some (extractTextContent (.elementN name attrs cs)) else none),
          [], path⟩ options g g' h
      obtain ⟨h1, h2⟩ := processHNodes_usedIds_congr digest options cs
        (generateIdForNode digest g
          ⟨name, (if options.strategy = .slug
            then some (extractTextContent (.elementN name attrs cs)) else none),
            [], path⟩ options).2
        (generateIdForNode digest g'
          ⟨name, (if options.strategy = .slug
            then some (extractTextContent (.elementN name attrs cs)) else none),
            [], path⟩ options).2
        (path ++ [i]) 0 hused
      simp only [processHNode, hp, if_true]
      exact ⟨by rw [hid, h1], h2⟩
    · rw [Bool.not_eq_true] at hp
      obtain ⟨h1, h2⟩ := processHNodes_usedIds_congr digest options cs g g' (path ++ [i]) 0 h
      simp only [processHNode, hp, Bool.false_eq_true, if_false]
      exact ⟨by rw [h1], h2⟩
  | textN s => intro g g' path i h; exact ⟨rfl, h⟩
  | commentN s => intro g g' path i h; exact ⟨rfl, h⟩

theorem processHNodes_usedIds_congr (digest : String → String) (options : IdOptions) :
    ∀ (cs : List HNode) (g g' : IdGenerator) (path : List Nat) (i : Nat),
      g.usedIds = g'.usedIds →
      (processHNodes digest options g path i cs).1
        = (processHNodes digest options g' path i cs).1
      ∧ (processHNodes digest options g path i cs).2.usedIds
        = (processHNodes digest options g' path i cs).2.usedIds := by
  intro cs
  cases cs with
  | nil => intro g g' path i h; exact ⟨rfl, h⟩
  | cons c rest =>
    intro g g' path i h
    obtain ⟨hc1, hc2⟩ := processHNode_usedIds_congr digest options c g g' path i h
    obtain ⟨hr1, hr2⟩ := processHNodes_usedIds_congr digest options rest
      (processHNode digest options g path i c).2
      (processHNode digest options g' path i c).2 path (i + 1) hc2
    simp only [processHNodes]
    exact ⟨by rw [hc1, hr1], hr2⟩
end

theorem updateAt_usedIds_congr (digest : String → String) (options : IdOptions) :
    ∀ (p : List Nat) (t : HNode) (g g' : IdGenerator), g.usedIds = g'.usedIds →
      (updateAt (fun s h => processHNode digest options h [] 0 s) p t g).1
        = (updateAt (fun s h => processHNode digest options h [] 0 s) p t g').1
      ∧ (updateAt (fun s h => processHNode digest options h [] 0 s) p t g).2.usedIds
        = (updateAt (fun s h => processHNode digest options h [] 0 s) p t g').2.usedIds := by
  intro p
  induction p with
  | nil =>
    intro t g g' h
    exact processHNode_usedIds_congr digest options t g g' [] 0 h
  | cons i p' ih =>
    intro t g g' h
    cases t with
    | elementN name attrs cs =>
      cases hc : cs[i]? with
      | none =>
        refine ⟨?_, ?_⟩ <;> simp [updateAt, hc, h]
      | some c =>
        obtain ⟨h1, h2⟩ := ih c g g' h
        simp only [updateAt, hc]
        exact ⟨by rw [h1], h2⟩
    | textN s => exact ⟨rfl, h⟩
    | commentN s => exact ⟨rfl, h⟩

theorem foldUpdate_usedIds_congr (digest : String → String) (options : IdOptions) :
    ∀ (L : List (List Nat)) (t : HNode) (g g' : IdGenerator), g.usedIds = g'.usedIds →
      (foldUpdate digest options L t g).1 = (foldUpdate digest options L t g').1
      ∧ (foldUpdate digest options L t g).2.usedIds
        = (foldUpdate digest options L t g').2.usedIds := by
  intro L
  induction L with
  | nil => intro t g g' h; exact ⟨rfl, h⟩
  | cons p ps ih =>
    intro t g g' h
    obtain ⟨h1, h2⟩ := updateAt_usedIds_congr digest options p t g g' h
    simp only [foldUpdate]
    rw [← h1]
    exact ih _ _ _ h2

theorem processHtml_usedIds_congr (digest : String → String) (options : IdOptions)
    (doc : HNode) (g g' : IdGenerator) (h : g.usedIds = g'.usedIds) :
    (processHtml digest options g doc).1 = (processHtml digest options g' doc).1 := by
  unfold processHtml
  cases options.selector with
  | none => exact (processHNode_usedIds_congr digest options doc g g' [] 0 h).1
  | some sel => exact (foldUpdate_usedIds_congr digest options
      (matchedPaths sel [] doc) doc g g' h).1

/-! ## JSX engine (`jsx.rs`)

The engine parses source to a syntax tree and runs a mutable visitor; it is
modelled on JSX nodes directly (parsing and code generation are the
library's).  Attribute names are SWC `Ident`s or namespaced names; values
are string literals, other expressions, or absent. -/

/-- A JSX attribute value as the visitor distinguishes them. -/
inductive JAttrVal
  | strLit (s : String)
  | exprVal
  | noVal
deriving DecidableEq

/-- A JSX attribute-or-spread: an ident-named attribute, a namespaced-name
attribute, or a spread. -/
inductive JAttr
  | identA (name : String) (val : JAttrVal)
  | namespacedA (raw : String)
  | spreadA
deriving DecidableEq

/-- `JsxProcessor::is_host_element`: first character lowercase. -/
def isHostElement (name : String) : Bool :=
  match name.data with
  | [] => false
  | c :: _ => c.isLower

/-- The visitor's existing-attribute lookup (`find_map`): the first
ident-named attribute matching the configured name whose value is a string
literal; matching names with non-literal values are skipped. -/
def existingAttr (attrs : List JAttr) (attrName : String) : Option String :=
  attrs.findSome? fun a =>
    match a with
    | .identA n (.strLit s) => if n = attrName then some s else none
    | _ => none

/-- The `retain` run when overwriting: drop every ident-named attribute
with the configured name (any value kind); keep spreads and namespaced
attributes. -/
def retainNonTarget (attrs : List JAttr) (attrName : String) : List JAttr :=
  attrs.filter fun a =>
    match a with
    | .identA n _ => n ≠ attrName
    | _ => true

/-- `JsxVisitor::process_jsx_opening`: host check (before the policy
engine), existing lookup, policy, generation, optional retain, append,
counter increment. -/
def processJsxOpening (digest : String → String) (options : IdOptions)
    (g : IdGenerator) (pathStack : List Nat) (name : String) (attrs : List JAttr) :
    List JAttr × IdGenerator :=
  if !(isHostElement name) then (attrs, g)
  else
    let existing := existingAttr attrs options.attr
    if !(shouldProcessNode name options existing) then (attrs, g)
    else
      let rid := generateIdForNode digest g ⟨name, none, [], pathStack⟩ options
      let attrs1 := if options.overwrite then retainNonTarget attrs options.attr else attrs
      let attrs2 := if existing.isNone || options.overwrite
        then attrs1 ++ [.identA options.attr (.strLit rid.1)] else attrs1
      (attrs2, rid.2.incr)

/-- A JSX child node as the visitor distinguishes them. -/
inductive JsxNode
  | elemJ (name : String) (attrs : List JAttr) (children : List JsxNode)
  | fragJ (children : List JsxNode)
  | textJ (s : String)
  | exprJ (s : String)

mutual
/-- `visit_mut_jsx_element` / `visit_mut_jsx_fragment`: push the current
visitation counter onto the path stack, process the opening element (for
elements), visit the children, pop the stack on exit. -/
def visitJsxNode (digest : String → String) (options : IdOptions) :
    JsxNode → IdGenerator → List Nat → JsxNode × IdGenerator
  | .elemJ name attrs children, g, stack =>
    let stack' := stack ++ [g.nodeCounter]
    let r := processJsxOpening digest options g stack' name attrs
    let rc := visitJsxNodes digest options children r.2 stack'
    (.elemJ name r.1 rc.1, rc.2)
  | .fragJ children, g, stack =>
    let stack' := stack ++ [g.nodeCounter]
    let rc := visitJsxNodes digest options children g stack'
    (.fragJ rc.1, rc.2)
  | .textJ s, g, _ => (.textJ s, g)
  | .exprJ s, g, _ => (.exprJ s, g)

def visitJsxNodes (digest : String → String) (options : IdOptions) :
    List JsxNode → IdGenerator → List Nat → List JsxNode × IdGenerator
  | [], g, _ => ([], g)
  | c :: rest, g, stack =>
    let rc := visitJsxNode digest options c g stack
    let rr := visitJsxNodes digest options rest rc.2 stack
    (rc.1 :: rr.1, rr.2)
end

theorem processJsxOpening_reject (digest : String → String) (options : IdOptions)
    (g : IdGenerator) (stack : List Nat) (name : String) (attrs : List JAttr)
    (h : isHostElement name = false
      ∨ shouldProcessNode name options (existingAttr attrs options.attr) = false) :
    processJsxOpening digest options g stack name attrs = (attrs, g) := by
  rcases h with h | h
  · simp [processJsxOpening, h]
  · by_cases hh : isHostElement name = true
    · simp [processJsxOpening, hh, h]
    · rw [Bool.not_eq_true] at hh
      simp [processJsxOpening, hh]

/-- C8.  The host-element filter of the JSX engine: an element whose name
does not start with a lowercase letter is never touched (the check runs
before the policy engine, so no configuration can override it, and its
children are simply visited); a lowercase-named element that the policy
engine accepts receives the configured attribute as an appended
string-literal attribute. -/
theorem claim_C8_host_filter :
    (∀ (digest : String → String) (options : IdOptions) (g : IdGenerator)
      (stack : List Nat) (name : String) (attrs : List JAttr),
      isHostElement name = false →
      processJsxOpening digest options g stack name attrs = (attrs, g))
    ∧ (∀ (digest : String → String) (options : IdOptions) (g : IdGenerator)
      (stack : List Nat) (name : String) (attrs : List JAttr),
      isHostElement name = true →
      shouldProcessNode name options (existingAttr attrs options.attr) = true →
      (processJsxOpening digest options g stack name attrs).1
        = (if options.overwrite then retainNonTarget attrs options.attr else attrs)
          ++ [.identA options.attr
              (.strLit (generateIdForNode digest g ⟨name, none, [], stack⟩ options).1)])
    ∧ (∀ (digest : String → String) (options : IdOptions) (g : IdGenerator)
      (stack : List Nat) (name : String) (attrs : List JAttr)
      (children : List JsxNode),
      isHostElement name = false →
      ∃ cs', (visitJsxNode digest options (.elemJ name attrs children) g stack).1
        = .elemJ name attrs cs') := by
  refine ⟨?_, ?_, ?_⟩
  · intro digest options g stack name attrs h
    exact processJsxOpening_reject digest options g stack name attrs (Or.inl h)
  · intro digest options g stack name attrs hh hp
    have hor := shouldProcess_none_or_overwrite name options
      (existingAttr attrs options.attr) hp
    simp only [processJsxOpening, hh, Bool.not_true, Bool.false_eq_true, if_false,
      hp, if_true, hor]
  · intro digest options g stack name attrs children h
    refine ⟨(visitJsxNodes digest options children g (stack ++ [g.nodeCounter])).1, ?_⟩
    simp only [visitJsxNode]
    rw [processJsxOpening_reject digest options g (stack ++ [g.nodeCounter])
      name attrs (Or.inl h)]

/-- Closed witness for C8: `Component` is skipped under an aggressive
configuration; `div` receives the attribute. -/
theorem claim_C8_host_filter_witness :
    (isHostElement "Component" = false
      ∧ isHostElement "div" = true
      ∧ shouldProcessNode "div" optsPathNoOw (existingAttr [] "data-ast-id") = true)
    ∧ processJsxOpening digA
        ⟨"data-ast-id", .path, "el-", true, none, ["Component"], []⟩
        IdGenerator.new [0] "Component" [] = ([], IdGenerator.new)
    ∧ (processJsxOpening digA optsPathNoOw IdGenerator.new [0] "div" []).1
        = (if optsPathNoOw.overwrite then retainNonTarget [] "data-ast-id" else [])
          ++ [.identA "data-ast-id"
              (.strLit (generateIdForNode digA IdGenerator.new
                ⟨"div", none, [], [0]⟩ optsPathNoOw).1)] :=
  ⟨⟨by decide, by decide, by decide⟩,
   claim_C8_host_filter.1 digA
     ⟨"data-ast-id", .path, "el-", true, none, ["Component"], []⟩
     IdGenerator.new [0] "Component" [] (by decide),
   claim_C8_host_filter.2.1 digA optsPathNoOw IdGenerator.new [0] "div" []
     (by decide) (by decide)⟩

/-! ## JSX idempotence -/

mutual
/-- Every element of the JSX tree is either non-host or policy-rejected. -/
def settledJ (options : IdOptions) : JsxNode → Bool
  | .elemJ name attrs cs =>
    (!(isHostElement name)
      || !(shouldProcessNode name options (existingAttr attrs options.attr)))
      && settledJList options cs
  | .fragJ cs => settledJList options cs
  | .textJ _ => true
  | .exprJ _ => true

def settledJList (options : IdOptions) : List JsxNode → Bool
  | [] => true
  | c :: rest => settledJ options c && settledJList options rest
end

mutual
theorem visitJsxNode_settled_id (digest : String → String) (options : IdOptions) :
    ∀ (t : JsxNode), settledJ options t = true →
      ∀ g stack, visitJsxNode digest options t g stack = (t, g) := by
  intro t
  cases t with
  | elemJ name attrs cs =>
    intro hs g stack
    simp only [settledJ, Bool.and_eq_true, Bool.or_eq_true, Bool.not_eq_true'] at hs
    obtain ⟨hrej, hcs⟩ := hs
    simp only [visitJsxNode]
    rw [processJsxOpening_reject digest options g (stack ++ [g.nodeCounter])
      name attrs hrej]
    rw [visitJsxNodes_settled_id digest options cs hcs g (stack ++ [g.nodeCounter])]
  | fragJ cs =>
    intro hs g stack
    simp only [settledJ] at hs
    simp only [visitJsxNode]
    rw [visitJsxNodes_settled_id digest options cs hs g (stack ++ [g.nodeCounter])]
  | textJ s => intro _ g stack; rfl
  | exprJ s => intro _ g stack; rfl

theorem visitJsxNodes_settled_id (digest : String → String) (options : IdOptions) :
    ∀ (cs : List JsxNode), settledJList options cs = true →
      ∀ g stack, visitJsxNodes digest options cs g stack = (cs, g) := by
  intro cs
  cases cs with
  | nil => intro _ g stack; rfl
  | cons c rest =>
    intro hs g stack
    simp only [settledJList, Bool.and_eq_true] at hs
    simp only [visitJsxNodes]
    rw [visitJsxNode_settled_id digest options c hs.1 g stack,
      visitJsxNodes_settled_id digest options rest hs.2 g stack]
end

theorem existingAttr_append_self (attrs : List JAttr) (a v : String)
    (h : existingAttr attrs a = none) :
    existingAttr (attrs ++ [.identA a (.strLit v)]) a = some v := by
  induction attrs with
  | nil => simp [existingAttr, List.findSome?]
  | cons x rest ih =>
    cases x with
    | identA n val =>
      cases val with
      | strLit s =>
        by_cases hn : n = a
        · simp [existingAttr, List.findSome?_cons, hn] at h
        · have h' : existingAttr rest a = none := by
            simpa [existingAttr, List.findSome?_cons, hn] using h
          simpa [existingAttr, List.findSome?_cons, hn] using ih h'
      | exprVal =>
        have h' : existingAttr rest a = none := by
          simpa [existingAttr, List.findSome?_cons] using h
        simpa [existingAttr, List.findSome?_cons] using ih h'
      | noVal =>
        have h' : existingAttr rest a = none := by
          simpa [existingAttr, List.findSome?_cons] using h
        simpa [existingAttr, List.findSome?_cons] using ih h'
    | namespacedA raw =>
      have h' : existingAttr rest a = none := by
        simpa [existingAttr, List.findSome?_cons] using h
      simpa [existingAttr, List.findSome?_cons] using ih h'
    | spreadA =>
      have h' : existingAttr rest a = none := by
        simpa [existingAttr, List.findSome?_cons] using h
      simpa [existingAttr, List.findSome?_cons] using ih h'

mutual
theorem visitJsxNode_settles (digest : String → String) (options : IdOptions)
    (how : options.overwrite = false) :
    ∀ (t : JsxNode) (g : IdGenerator) (stack : List Nat),
      settledJ options (visitJsxNode digest options t g stack).1 = true := by
  intro t
  cases t with
  | elemJ name attrs cs =>
    intro g stack
    by_cases hh : isHostElement name = true
    · by_cases hp : shouldProcessNode name options
        (existingAttr attrs options.attr) = true
      · have hnone := shouldProcess_existing_none name options _ hp how
        have hor : ((existingAttr attrs options.attr).isNone || options.overwrite)
            = true := by rw [hnone]; simp
        have hattrs1 : (if options.overwrite
            then retainNonTarget attrs options.attr else attrs) = attrs := by
          rw [how]
          simp
        simp only [visitJsxNode, processJsxOpening, hh, Bool.not_true,
          Bool.false_eq_true, if_false, hp, if_true, hor, hattrs1, settledJ,
          Bool.and_eq_true, Bool.or_eq_true, Bool.not_eq_true']
        constructor
        · right
          rw [existingAttr_append_self attrs options.attr _ hnone]
          exact shouldProcess_some_no_overwrite name options _ how
        · exact visitJsxNodes_settle digest options how cs _ _
      · rw [Bool.not_eq_true] at hp
        simp only [visitJsxNode]
        rw [processJsxOpening_reject digest options g (stack ++ [g.nodeCounter])
          name attrs (Or.inr hp)]
        simp only [settledJ, Bool.and_eq_true, Bool.or_eq_true, Bool.not_eq_true']
        exact ⟨Or.inr hp, visitJsxNodes_settle digest options how cs _ _⟩
    · rw [Bool.not_eq_true] at hh
      simp only [visitJsxNode]
      rw [processJsxOpening_reject digest options g (stack ++ [g.nodeCounter])
        name attrs (Or.inl hh)]
      simp only [settledJ, Bool.and_eq_true, Bool.or_eq_true, Bool.not_eq_true']
      exact ⟨Or.inl hh, visitJsxNodes_settle digest options how cs _ _⟩
  | fragJ cs =>
    intro g stack
    simp only [visitJsxNode, settledJ]
    exact visitJsxNodes_settle digest options how cs _ _
  | textJ s => intro g stack; rfl
  | exprJ s => intro g stack; rfl

theorem visitJsxNodes_settle (digest : String → String) (options : IdOptions)
    (how : options.overwrite = false) :
    ∀ (cs : List JsxNode) (g : IdGenerator) (stack : List Nat),
      settledJList options (visitJsxNodes digest options cs g stack).1 = true := by
  intro cs
  cases cs with
  | nil => intro g stack; rfl
  | cons c rest =>
    intro g stack
    simp only [visitJsxNodes, settledJList, Bool.and_eq_true]
    exact ⟨visitJsxNode_settles digest options how c _ _,
      visitJsxNodes_settle digest options how rest _ _⟩
end

/-! ## Final claim theorems: processor state and idempotence -/

/-- C2 (amended).  The generator is created in `new` and lives in the
processor, so it persists across `process` calls; a call's output is
determined by the document, the configuration, and the used-identifier set
the processor carries (the XML and HTML engines never read the visitation
counter).  With a fresh processor per call — an empty used set — the output
therefore depends only on document content and configuration. -/
theorem claim_C2_output_from_carried_state :
    (∀ (digest : String → String) (options : IdOptions) (es : List XmlEvent)
      (g g' : IdGenerator), g.usedIds = g'.usedIds →
      (xmlProcess digest options g es).1 = (xmlProcess digest options g' es).1)
    ∧ (∀ (digest : String → String) (options : IdOptions) (doc : HNode)
      (g g' : IdGenerator), g.usedIds = g'.usedIds →
      (processHtml digest options g doc).1 = (processHtml digest options g' doc).1) :=
  ⟨fun digest options es g g' h =>
    (processEventsAux_usedIds_congr digest options (trimText es) g g' [] 0 h).1,
   fun digest options doc g g' h => processHtml_usedIds_congr digest options doc g g' h⟩

/-- Closed witness for the amended C2: a processor whose counter differs
but whose used set is empty produces the fresh-processor output. -/
theorem claim_C2_output_from_carried_state_witness :
    ((⟨∅, 7⟩ : IdGenerator).usedIds = IdGenerator.new.usedIds)
    ∧ (xmlProcess digA optsPathNoOw ⟨∅, 7⟩ [.emptyE "a" []]).1
      = (xmlProcess digA optsPathNoOw IdGenerator.new [.emptyE "a" []]).1 :=
  ⟨by decide,
   claim_C2_output_from_carried_state.1 digA optsPathNoOw [.emptyE "a" []]
     ⟨∅, 7⟩ IdGenerator.new (by decide)⟩

/-- The C3 counterexample document: three sibling `div` elements, the
first already carrying the configured attribute. -/
def docAdj : HNode :=
  .elementN "section" []
    [.elementN "div" [("data-ast-id", "x")] [.textN "a"],
     .elementN "div" [] [.textN "b"],
     .elementN "div" [] [.textN "c"]]

/-- Path strategy, `overwrite = false`, with the attribute-sensitive
selector `[data-ast-id] + *`. -/
def optsAdj : IdOptions :=
  ⟨"data-ast-id", .path, "el-", false, some "[data-ast-id] + *", [], []⟩

/-- C3 (counterexample).  With the selector `[data-ast-id] + *` and
`overwrite = false`, the first pass stamps only the second `div` (the one
following the attribute-bearing first `div`); on the second pass the
match set is recomputed on the stamped tree, the third `div` now follows
an attribute-bearing sibling and is stamped too, so
`process (process d) ≠ process d`. -/
theorem claim_C3_counterexample :
    elementAttrsAt [2] (processHtml digA optsAdj IdGenerator.new
        ((processHtml digA optsAdj IdGenerator.new docAdj).1)).1
      = some ("div", [("data-ast-id", "el-div")])
    ∧ elementAttrsAt [2] (processHtml digA optsAdj IdGenerator.new docAdj).1
      = some ("div", [])
    ∧ (processHtml digA optsAdj IdGenerator.new
        ((processHtml digA optsAdj IdGenerator.new docAdj).1)).1
      ≠ (processHtml digA optsAdj IdGenerator.new docAdj).1 := by
  refine ⟨by decide, by decide, fun h => ?_⟩
  have h2 := congrArg (elementAttrsAt [2]) h
  rw [show elementAttrsAt [2] (processHtml digA optsAdj IdGenerator.new
        ((processHtml digA optsAdj IdGenerator.new docAdj).1)).1
      = some ("div", [("data-ast-id", "el-div")]) from by decide,
    show elementAttrsAt [2] (processHtml digA optsAdj IdGenerator.new docAdj).1
      = some ("div", []) from by decide] at h2
  simp at h2

/-- C3 (amended).  Idempotence under `overwrite = false`: the XML and JSX
engines are idempotent for every configuration, and the HTML engine is
idempotent when no selector is configured or when the configured selector
never tests the configured attribute (type and universal selectors,
attribute-presence selectors on other attributes, and their
adjacent-sibling combinations); a selector that observes the configured
attribute can match new elements on the second pass (counterexample). -/
theorem claim_C3_idempotent (digest : String → String) (options : IdOptions)
    (how : options.overwrite = false) :
    (∀ es : List XmlEvent,
      (xmlProcess digest options IdGenerator.new
        ((xmlProcess digest options IdGenerator.new es).1)).1
      = (xmlProcess digest options IdGenerator.new es).1)
    ∧ (∀ doc : HNode,
      (options.selector = none
        ∨ ∃ s c, options.selector = some s ∧ parseSelector s = some c
            ∧ attrInsensitive options.attr c = true) →
      (processHtml digest options IdGenerator.new
        ((processHtml digest options IdGenerator.new doc).1)).1
      = (processHtml digest options IdGenerator.new doc).1)
    ∧ (∀ t : JsxNode,
      (visitJsxNode digest options
        ((visitJsxNode digest options t IdGenerator.new []).1) IdGenerator.new []).1
      = (visitJsxNode digest options t IdGenerator.new []).1) :=
  ⟨fun es => xmlProcess_idem digest options how es IdGenerator.new IdGenerator.new,
   fun doc hsel =>
     processHtml_idem digest options how hsel doc IdGenerator.new IdGenerator.new,
   fun t => by
     have hset := visitJsxNode_settles digest options how t IdGenerator.new []
     rw [visitJsxNode_settled_id digest options _ hset IdGenerator.new []]⟩

/-- Closed witness for the amended C3, one instance per engine (the HTML
instance runs with the tag selector `"p"`, which is attribute-insensitive). -/
theorem claim_C3_idempotent_witness :
    (optsPathNoOw.overwrite = false ∧ optsSelP.overwrite = false
      ∧ optsSelP.selector = some "p"
      ∧ parseSelector "p" = some (CssSel.tagS "p")
      ∧ attrInsensitive optsSelP.attr (CssSel.tagS "p") = true)
    ∧ (xmlProcess digA optsPathNoOw IdGenerator.new
        ((xmlProcess digA optsPathNoOw IdGenerator.new
          [.startE "root" [], .textE " hi ", .emptyE "a" [("id", "x")], .endE "root"]).1)).1
      = (xmlProcess digA optsPathNoOw IdGenerator.new
          [.startE "root" [], .textE " hi ", .emptyE "a" [("id", "x")], .endE "root"]).1
    ∧ (processHtml digA optsSelP IdGenerator.new
        ((processHtml digA optsSelP IdGenerator.new docDivPSpan).1)).1
      = (processHtml digA optsSelP IdGenerator.new docDivPSpan).1
    ∧ (visitJsxNode digA optsPathNoOw
        ((visitJsxNode digA optsPathNoOw
          (.elemJ "div" [] [.elemJ "span" [] [.textJ "Hello"], .elemJ "Component" [] []])
          IdGenerator.new []).1) IdGenerator.new []).1
      = (visitJsxNode digA optsPathNoOw
          (.elemJ "div" [] [.elemJ "span" [] [.textJ "Hello"], .elemJ "Component" [] []])
          IdGenerator.new []).1 :=
  ⟨⟨by decide, by decide, by decide, by decide, by decide⟩,
   (claim_C3_idempotent digA optsPathNoOw (by decide)).1
     [.startE "root" [], .textE " hi ", .emptyE "a" [("id", "x")], .endE "root"],
   (claim_C3_idempotent digA optsSelP (by decide)).2.1 docDivPSpan
     (Or.inr ⟨"p", CssSel.tagS "p", rfl, by decide, by decide⟩),
   (claim_C3_idempotent digA optsPathNoOw (by decide)).2.2
     (.elemJ "div" [] [.elemJ "span" [] [.textJ "Hello"], .elemJ "Component" [] []])⟩
